import Mathlib

/-!
# Verification of the UCCA annotation-graph core and transition parser

This file gives a shallow embedding of the two subsystems of the repository:

* the Graph Store (`core.py`: `Passage` / `Layer` / `Node` / `Edge`, with the
  frozen-passage guard, layer head tracking and node destruction), and
* the Transition System and Graph Finalizer (`parser/config.py`:
  `Node`, `Edge`, `Configuration.apply_action`,
  `Configuration.topological_sort` and the `passage` property),

together with theorems settling the specification claims about them.

Modelling conventions:
* Python object identity is modelled with explicit keys: graph nodes by their
  identifier (layer string, numeric suffix), edge objects by a fresh counter.
* Python exceptions are modelled by returning the state at the raise point
  together with an error marker (`GState × Option PyErr`); all guards are
  checked in source order, so a raising call mutates exactly the fields the
  Python code mutated before the raise.
* `id_orderkey` pads the numeric suffix to 5 digits (`UNIQUE_ID_MAX_DIGITS`)
  and compares strings; for suffixes below 10^5 this equals the lexicographic
  order on (layer string, numeric suffix) pairs used here.
* Python's stable `list.sort` is modelled by insertion sort (`isortBy`),
  which is stable for the boolean `≤`-style comparators used.
-/

/-- Python code-point comparison of character lists (used for `str <`). -/
def clistLt : List Char → List Char → Bool
  | _, [] => false
  | [], _ :: _ => true
  | a :: as, b :: bs => a.toNat < b.toNat || (a.toNat == b.toNat && clistLt as bs)

/-- Python `<` on strings: lexicographic by code point. -/
def strLt (a b : String) : Bool := clistLt a.data b.data

/-- Stable insertion of `a` into `l` before the first element `b` with
`le a b`; used to model Python's stable `list.sort`. -/
def insertLe (le : α → α → Bool) (a : α) : List α → List α
  | [] => [a]
  | b :: l => if le a b then a :: b :: l else b :: insertLe le a l

/-- Stable insertion sort, the model of Python `list.sort(key=...)`. -/
def isortBy (le : α → α → Bool) : List α → List α
  | [] => []
  | a :: l => insertLe le a (isortBy le l)

/-! ## The Graph Store (`core.py`) -/

/-- A node identifier: layer prefix and numeric suffix, the two parts of the
Python ID string `"<layer>.<unique>"` split at `Node.ID_SEPARATOR`. -/
structure NID where
  layer : String
  unique : Nat
deriving DecidableEq, Repr

/-- `id_orderkey`: sort by layer (string), then numerically by unique ID
(faithful to the padded string comparison for suffixes < 10^5). -/
def nidLe (a b : NID) : Bool :=
  strLt a.layer b.layer || (a.layer == b.layer && a.unique ≤ b.unique)

/-- The payload of a `core.Edge` object: tag, parent and child node IDs. -/
structure EdgeData where
  tag : String
  parent : NID
  child : NID
deriving DecidableEq, Repr

/-- The mutable per-object state of a `core.Node`: its tag and its sorted
adjacency lists, holding edge-object keys. -/
structure NodeObj where
  tag : String
  outgoing : List Nat
  incoming : List Nat
deriving DecidableEq, Repr

/-- The mutable state of a `core.Layer`: the `_all` and `_heads` lists. -/
structure LayerObj where
  all : List NID
  heads : List NID
deriving DecidableEq, Repr

/-- Errors raised by the Graph Store, plus the raw Python exceptions that
escape it (`ValueError` from `list.remove`, `KeyError` from dict lookup).
`fuelOut` marks exhaustion of loop fuel and is unreachable on the traces
used here. -/
inductive PyErr where
  | frozenPassage
  | duplicateId
  | missingNode
  | keyError
  | valueError
  | fuelOut
deriving DecidableEq, Repr

/-- The whole-graph state of one `core.Passage`: the heap of all edge objects
ever created (keyed by a freshness counter standing for object identity), the
heap of node objects (keyed by ID; IDs are not recycled on the traces used
here), the passage's `_nodes` key set, its `_layers` dict, and the `frozen`
flag.  Attribute dictionaries are modelled separately (`attrSet` etc.). -/
structure GState where
  edges : List (Nat × EdgeData)
  nheap : NID → NodeObj
  pnodes : NID → Bool
  layers : String → Option LayerObj
  frozen : Bool
  nextEid : Nat

/-- A fresh `core.Passage`: empty and mutable. -/
def mkPassage : GState :=
  { edges := [], nheap := fun _ => ⟨"", [], []⟩, pnodes := fun _ => false,
    layers := fun _ => none, frozen := false, nextEid := 0 }

/-- Update one node object in the heap. -/
def updNode (s : GState) (n : NID) (f : NodeObj → NodeObj) : GState :=
  { s with nheap := fun x => if x = n then f (s.nheap x) else s.nheap x }

/-- Update one layer object (no-op if the layer is absent). -/
def updLayer (s : GState) (lid : String) (f : LayerObj → LayerObj) : GState :=
  { s with layers := fun x => if x = lid then (s.layers x).map f else s.layers x }

/-- Data of the edge object with key `eid`. -/
def edgeOf (s : GState) (eid : Nat) : Option EdgeData := s.edges.lookup eid

/-- `edge_id_orderkey` comparison between two edge objects: lexicographic on
(`id_orderkey parent`, `id_orderkey child`). -/
def ekeyLe (s : GState) (e f : Nat) : Bool :=
  match edgeOf s e, edgeOf s f with
  | some ed, some fd =>
      (nidLe ed.parent fd.parent && !(nidLe fd.parent ed.parent)) ||
      (nidLe ed.parent fd.parent && nidLe fd.parent ed.parent && nidLe ed.child fd.child)
  | _, _ => true

/-- `Node.parents`: the parent of each incoming edge. -/
def parentsOfNode (s : GState) (n : NID) : List NID :=
  (s.nheap n).incoming.filterMap (fun eid => (edgeOf s eid).map EdgeData.parent)

/-- `Node.children`: the child of each outgoing edge. -/
def childrenOfNode (s : GState) (n : NID) : List NID :=
  (s.nheap n).outgoing.filterMap (fun eid => (edgeOf s eid).map EdgeData.child)

/-- `Layer.__init__` followed by `Passage._add_layer`: frozen check, then
duplicate-ID check, then registration of an empty layer. -/
def mkLayer (s : GState) (lid : String) : GState × Option PyErr :=
  if s.frozen then (s, some .frozenPassage)
  else if (s.layers lid).isSome then (s, some .duplicateId)
  else ({ s with layers := fun x => if x = lid then some ⟨[], []⟩ else s.layers x }, none)

/-- `Layer._add_node`: append the node to `_all` and `_heads` and re-sort
both with the layer's order key (`id_orderkey`). -/
def layerAddNode (s : GState) (lid : String) (n : NID) : GState :=
  updLayer s lid (fun L =>
    ⟨isortBy nidLe (L.all ++ [n]), isortBy nidLe (L.heads ++ [n])⟩)

/-- `Node.__init__`: frozen check; the object starts with empty adjacency;
`Passage._add_node` (duplicate-ID check) runs before the layer lookup
`root.layer(self.layer.ID)`, so a missing layer raises `KeyError` after the
node is already registered in the passage. -/
def mkNode (s : GState) (n : NID) (tag : String) : GState × Option PyErr :=
  if s.frozen then (s, some .frozenPassage)
  else if s.pnodes n then (s, some .duplicateId)
  else
    let s1 : GState :=
      { s with pnodes := fun x => (x = n) || s.pnodes x,
               nheap := fun x => if x = n then ⟨tag, [], []⟩ else s.nheap x }
    match s1.layers n.layer with
    | none => (s1, some .keyError)
    | some _ => (layerAddNode s1 n.layer n, none)

/-- `Layer._add_edge`: drop the child from `_heads` if present, then re-sort
`_all` and `_heads`. -/
def layerAddEdge (s : GState) (lid : String) (child : NID) : GState :=
  updLayer s lid (fun L =>
    let heads1 := if L.heads.contains child then L.heads.erase child else L.heads
    ⟨isortBy nidLe L.all, isortBy nidLe heads1⟩)

/-- `Edge.__init__` inside `Node.add`: register the fresh edge object. -/
def addEdgeS1 (s : GState) (p : NID) (tag : String) (c : NID) : GState :=
  { s with edges := (s.nextEid, ⟨tag, p, c⟩) :: s.edges, nextEid := s.nextEid + 1 }

/-- The adjacency updates of `Node.add`: append-and-sort the fresh edge into
the parent's `_outgoing` and the child's `_incoming`. -/
def addEdgeS3 (s : GState) (p : NID) (tag : String) (c : NID) : GState :=
  updNode (updNode (addEdgeS1 s p tag c) p
      (fun o => { o with outgoing := isortBy (ekeyLe (addEdgeS1 s p tag c)) (o.outgoing ++ [s.nextEid]) })) c
    (fun o => { o with incoming := isortBy (ekeyLe (addEdgeS1 s p tag c)) (o.incoming ++ [s.nextEid]) })

/-- `Node.add(edge_tag, node)`: frozen check (decorator), create the edge
object, append-and-sort it into the parent's `_outgoing` and the child's
`_incoming`, then — evaluating `self.layer` and `node.layer`, each a dict
lookup that can raise `KeyError` — notify the layer if both ends share it. -/
def addEdge (s : GState) (p : NID) (tag : String) (c : NID) : GState × Option PyErr :=
  if s.frozen then (s, some .frozenPassage)
  else
    match (addEdgeS3 s p tag c).layers p.layer with
    | none => (addEdgeS3 s p tag c, some .keyError)
    | some _ =>
      match (addEdgeS3 s p tag c).layers c.layer with
      | none => (addEdgeS3 s p tag c, some .keyError)
      | some _ =>
        if p.layer = c.layer then (layerAddEdge (addEdgeS3 s p tag c) p.layer c, none)
        else (addEdgeS3 s p tag c, none)

/-- `Layer._remove_edge`: if the child has no remaining same-layer parent,
append it back to `_heads`; re-sort `_all` and `_heads`. -/
def layerRemoveEdge (s : GState) (lid : String) (child : NID) : GState :=
  updLayer s lid (fun L =>
    let heads1 :=
      if (parentsOfNode s child).all (fun q => q.layer ≠ child.layer)
      then isortBy nidLe (L.heads ++ [child]) else L.heads
    ⟨isortBy nidLe L.all, isortBy nidLe heads1⟩)

/-- The shared tail of `Node.remove` once the edge has been resolved and is
known to be in `self._outgoing`: remove it from both adjacency lists (a
missing entry in the child's `_incoming` is Python `ValueError`, re-raised
as `MissingNodeError`, with `_outgoing` already mutated), then notify the
layer when both endpoints share it. -/
def removeEdgeCommon (s : GState) (p : NID) (eid : Nat) : GState × Option PyErr :=
  let s1 := updNode s p (fun o => { o with outgoing := o.outgoing.erase eid })
  match edgeOf s1 eid with
  | none => (s1, some .valueError)
  | some ed =>
    if (s1.nheap ed.child).incoming.contains eid then
      let s2 := updNode s1 ed.child (fun o => { o with incoming := o.incoming.erase eid })
      match s2.layers p.layer with
      | none => (s2, some .keyError)
      | some _ =>
        match s2.layers ed.child.layer with
        | none => (s2, some .keyError)
        | some _ =>
          if p.layer = ed.child.layer then (layerRemoveEdge s2 p.layer ed.child, none)
          else (s2, none)
    else (s1, some .missingNode)

/-- `Node.remove(edge)` with an `Edge` argument: frozen check; an edge object
absent from `self._outgoing` falls into the node branch, whose comprehension
never matches an `Edge`, so it raises `MissingNodeError`. -/
def removeEdgeOp (s : GState) (p : NID) (eid : Nat) : GState × Option PyErr :=
  if s.frozen then (s, some .frozenPassage)
  else if (s.nheap p).outgoing.contains eid then removeEdgeCommon s p eid
  else (s, some .missingNode)

/-- `Node.remove(node)` with a `Node` argument: frozen check; resolve to the
first outgoing edge whose child is that node, else `MissingNodeError`. -/
def removeChildOp (s : GState) (p c : NID) : GState × Option PyErr :=
  if s.frozen then (s, some .frozenPassage)
  else
    match (s.nheap p).outgoing.find? (fun eid => (edgeOf s eid).map EdgeData.child == some c) with
    | none => (s, some .missingNode)
    | some eid => removeEdgeCommon s p eid

/-- The loop `for edge in self._outgoing: self.remove(edge)` of
`Node.destroy`, with Python's index-based iteration over the list that
`remove` mutates (so every second entry is skipped). -/
def destroyOutLoop (s : GState) (n : NID) (i : Nat) : Nat → GState × Option PyErr
  | 0 => (s, some .fuelOut)
  | fuel + 1 =>
    let out := (s.nheap n).outgoing
    if h : i < out.length then
      match removeEdgeOp s n (out.get ⟨i, h⟩) with
      | (s', some e) => (s', some e)
      | (s', none) => destroyOutLoop s' n (i + 1) fuel
    else (s, none)

/-- The loop `for edge in self._incoming: edge.parent.remove(edge)` of
`Node.destroy`, again with index-based iteration over a mutating list. -/
def destroyInLoop (s : GState) (n : NID) (i : Nat) : Nat → GState × Option PyErr
  | 0 => (s, some .fuelOut)
  | fuel + 1 =>
    let inc := (s.nheap n).incoming
    if h : i < inc.length then
      let eid := inc.get ⟨i, h⟩
      match edgeOf s eid with
      | none => (s, some .valueError)
      | some ed =>
        match removeEdgeOp s ed.parent eid with
        | (s', some e) => (s', some e)
        | (s', none) => destroyInLoop s' n (i + 1) fuel
    else (s, none)

/-- `Node.destroy`: frozen check, the two removal loops, then
`Layer._remove_node` (two `list.remove` calls that raise `ValueError` when
the node is absent — `_all` is mutated before `_heads` is checked) and
`Passage._remove_node` (`del` raising `KeyError` when absent). -/
def destroy (s : GState) (n : NID) : GState × Option PyErr :=
  if s.frozen then (s, some .frozenPassage)
  else
    match destroyOutLoop s n 0 ((s.nheap n).outgoing.length + 1) with
    | (s1, some e) => (s1, some e)
    | (s1, none) =>
      match destroyInLoop s1 n 0 ((s1.nheap n).incoming.length + 1) with
      | (s2, some e) => (s2, some e)
      | (s2, none) =>
        match s2.layers n.layer with
        | none => (s2, some .keyError)
        | some L =>
          if L.all.contains n then
            let s3 := updLayer s2 n.layer (fun M => { M with all := M.all.erase n })
            if L.heads.contains n then
              let s4 := updLayer s3 n.layer (fun M => { M with heads := M.heads.erase n })
              if s4.pnodes n then
                ({ s4 with pnodes := fun x => if x = n then false else s4.pnodes x }, none)
              else (s4, some .keyError)
            else (s3, some .valueError)
          else (s2, some .valueError)

/-- An attribute dictionary (`_AttributeDict._dict`). -/
abbrev AttrMap := List (String × String)

/-- `_AttributeDict.__setitem__`: guarded by `@ModifyPassage` on the owning
passage's frozen flag. -/
def attrSet (s : GState) (m : AttrMap) (k v : String) : AttrMap × Option PyErr :=
  if s.frozen then (m, some .frozenPassage)
  else ((k, v) :: m.filter (fun kv => kv.1 ≠ k), none)

/-- `_AttributeDict.__delitem__`: guarded by `@ModifyPassage`; `del` on a
missing key is Python `KeyError`. -/
def attrDel (s : GState) (m : AttrMap) (k : String) : AttrMap × Option PyErr :=
  if s.frozen then (m, some .frozenPassage)
  else if (m.lookup k).isSome then (m.filter (fun kv => kv.1 ≠ k), none)
  else (m, some .keyError)

/-- `_AttributeDict.__getitem__`: an unguarded read (never consults the
frozen flag). -/
def attrGet (_s : GState) (m : AttrMap) (k : String) : Option String :=
  m.lookup k

/-- Modelled from the spec: `passage.freeze()` — the one-directional
transition of the mutability flag to immutable.  `core.py` declares and
checks the `frozen` attribute but contains no `freeze` method; the spec
(§4.1) fixes it as setting the flag, idempotently and without error. -/
def freeze (s : GState) : GState := { s with frozen := true }

/-! ## Heads invariant, concrete traces (claims about `core.py`) -/

/-- The specified layer invariant: `heads == { n in all : no parent of n is
in the same layer }`, read as an equality of sets — every head is a member
of `all`, and a member of `all` is a head exactly when none of its parents
shares its layer. -/
def headsMatchSpec (s : GState) (lid : String) : Bool :=
  match s.layers lid with
  | none => true
  | some L =>
    L.heads.all (fun n => L.all.contains n) &&
    L.all.all (fun n =>
      L.heads.contains n == (parentsOfNode s n).all (fun p => p.layer ≠ n.layer))

/-- Shorthand for running an operation and keeping the state (the Python
caller catches the exception and continues). -/
def opState (r : GState × Option PyErr) : GState := r.1

/-- A passage with one layer `"1"` and three fresh nodes `1.1`, `1.2`,
`1.3`; the common starting point of the concrete traces below. -/
def baseABC : GState :=
  opState (mkNode (opState (mkNode (opState (mkNode
    (opState (mkLayer mkPassage "1")) ⟨"1", 1⟩ "t")) ⟨"1", 2⟩ "t")) ⟨"1", 3⟩ "t")

/-- C3 trace: give node `1.1` two outgoing edges (`1.1→1.2` is edge 0,
`1.1→1.3` is edge 1) and destroy it. -/
def c3Destroyed : GState × Option PyErr :=
  destroy (opState (addEdge (opState (addEdge baseABC ⟨"1", 1⟩ "T" ⟨"1", 2⟩))
    ⟨"1", 1⟩ "T" ⟨"1", 3⟩)) ⟨"1", 1⟩

/-- C1 trace: edges `1.1→1.3` (edge 0) and `1.2→1.3` (edge 1); destroying
`1.3` raises `ValueError` half-way (the iteration skips edge 1 and
`Layer._remove_node` then fails on `_heads.remove`); the caller catches the
exception and removes the surviving edge with `node.remove`. -/
def c1AfterDestroy : GState × Option PyErr :=
  destroy (opState (addEdge (opState (addEdge baseABC ⟨"1", 1⟩ "T" ⟨"1", 3⟩))
    ⟨"1", 2⟩ "T" ⟨"1", 3⟩)) ⟨"1", 3⟩

/-- The final state of the C1 trace, after the caller's `node.remove`. -/
def c1Final : GState × Option PyErr :=
  removeChildOp (opState c1AfterDestroy) ⟨"1", 2⟩ ⟨"1", 3⟩

/-- **C1** (code_bug): the heads invariant does not hold in every reachable
Layer state.  Because `Node.destroy` iterates over the adjacency list that
`remove` is mutating, destroying `1.3` under two same-layer parents skips
one incoming edge and then dies in `Layer._remove_node` with `ValueError`,
after `_all.remove` but before the node leaves the passage; removing the
surviving edge afterwards appends `1.3` back to `_heads` even though it is
no longer in `_all`.  The final layer has `all = [1.1, 1.2]` but
`heads = [1.1, 1.2, 1.3]`, so `heads ≠ { n ∈ all : no same-layer parent }`. -/
theorem c1_heads_invariant_fails_on_destroy_trace :
    c1AfterDestroy.2 = some .valueError ∧
    c1Final.2 = none ∧
    (c1Final.1.layers "1") =
      some ⟨[⟨"1", 1⟩, ⟨"1", 2⟩], [⟨"1", 1⟩, ⟨"1", 2⟩, ⟨"1", 3⟩]⟩ ∧
    headsMatchSpec c1Final.1 "1" = false := by
  refine ⟨by decide, by decide, by decide, by decide⟩

/-- **C3** (code_bug): `node.destroy()` does not remove every incident edge.
On a node with two outgoing edges the loop `for edge in self._outgoing:
self.remove(edge)` skips every second entry of the list it is mutating:
destroying `1.1` returns without error and removes the node from its layer
and passage, yet edge 1 (`1.1→1.3`) is still present in both endpoints'
adjacency lists. -/
theorem c3_destroy_leaves_dangling_edge :
    c3Destroyed.2 = none ∧
    c3Destroyed.1.pnodes ⟨"1", 1⟩ = false ∧
    (c3Destroyed.1.nheap ⟨"1", 1⟩).outgoing = [1] ∧
    (c3Destroyed.1.nheap ⟨"1", 3⟩).incoming = [1] ∧
    edgeOf c3Destroyed.1 1 = some ⟨"T", ⟨"1", 1⟩, ⟨"1", 3⟩⟩ := by
  refine ⟨by decide, by decide, by decide, by decide, by decide⟩

/-! ## Frozen passages (C2, C5) -/

/-- All frozen-guard equations in one place: every mutating entry point of
the Graph Store checks `root.frozen` before touching anything, so on a
frozen passage it raises `FrozenPassageError` and returns the state
unchanged. -/
theorem frozen_guard_eqs (s : GState) (h : s.frozen = true)
    (lid : String) (n p c : NID) (tag k v : String) (eid : Nat) (m : AttrMap) :
    mkLayer s lid = (s, some .frozenPassage) ∧
    mkNode s n tag = (s, some .frozenPassage) ∧
    addEdge s p tag c = (s, some .frozenPassage) ∧
    removeEdgeOp s p eid = (s, some .frozenPassage) ∧
    removeChildOp s p c = (s, some .frozenPassage) ∧
    destroy s n = (s, some .frozenPassage) ∧
    attrSet s m k v = (m, some .frozenPassage) ∧
    attrDel s m k = (m, some .frozenPassage) := by
  refine ⟨?_, ?_, ?_, ?_, ?_, ?_, ?_, ?_⟩ <;>
    simp [mkLayer, mkNode, addEdge, removeEdgeOp, removeChildOp, destroy,
      attrSet, attrDel, h]

/-- **C2** (confirmed): on a frozen passage every mutating call — adding a
layer, node or edge, removing an edge, destroying a node, writing or
deleting an attribute entry — raises `FrozenPassageError` and leaves the
state unchanged, while attribute reads are unaffected by the frozen flag. -/
theorem c2_frozen_mutations_fail_and_preserve_state (s : GState) (h : s.frozen = true)
    (lid : String) (n p c : NID) (tag k v : String) (eid : Nat) (m : AttrMap) :
    mkLayer s lid = (s, some .frozenPassage) ∧
    mkNode s n tag = (s, some .frozenPassage) ∧
    addEdge s p tag c = (s, some .frozenPassage) ∧
    removeEdgeOp s p eid = (s, some .frozenPassage) ∧
    removeChildOp s p c = (s, some .frozenPassage) ∧
    destroy s n = (s, some .frozenPassage) ∧
    attrSet s m k v = (m, some .frozenPassage) ∧
    attrDel s m k = (m, some .frozenPassage) ∧
    (∀ s' : GState, attrGet s m k = attrGet s' m k) :=
  ⟨(frozen_guard_eqs s h lid n p c tag k v eid m).1,
   (frozen_guard_eqs s h lid n p c tag k v eid m).2.1,
   (frozen_guard_eqs s h lid n p c tag k v eid m).2.2.1,
   (frozen_guard_eqs s h lid n p c tag k v eid m).2.2.2.1,
   (frozen_guard_eqs s h lid n p c tag k v eid m).2.2.2.2.1,
   (frozen_guard_eqs s h lid n p c tag k v eid m).2.2.2.2.2.1,
   (frozen_guard_eqs s h lid n p c tag k v eid m).2.2.2.2.2.2.1,
   (frozen_guard_eqs s h lid n p c tag k v eid m).2.2.2.2.2.2.2,
   fun _ => rfl⟩

/-- Witness for C2 at a concrete frozen passage. -/
theorem c2_witness :
    (freeze mkPassage).frozen = true ∧
    mkLayer (freeze mkPassage) "1" = (freeze mkPassage, some .frozenPassage) :=
  ⟨rfl, (c2_frozen_mutations_fail_and_preserve_state (freeze mkPassage) rfl
    "1" ⟨"1", 1⟩ ⟨"1", 1⟩ ⟨"1", 2⟩ "t" "k" "v" 0 []).1⟩

/-- The public Graph Store operations, for quantifying over call
sequences. -/
inductive GOp where
  | addLayer (lid : String)
  | addNode (n : NID) (tag : String)
  | addE (p : NID) (tag : String) (c : NID)
  | removeE (p : NID) (eid : Nat)
  | removeC (p c : NID)
  | destroyN (n : NID)
  | freezeOp

/-- Apply one public operation, keeping the state whether or not the call
raised. -/
def applyGOp (s : GState) : GOp → GState
  | .addLayer lid => (mkLayer s lid).1
  | .addNode n tag => (mkNode s n tag).1
  | .addE p tag c => (addEdge s p tag c).1
  | .removeE p eid => (removeEdgeOp s p eid).1
  | .removeC p c => (removeChildOp s p c).1
  | .destroyN n => (destroy s n).1
  | .freezeOp => freeze s

/-- Apply a sequence of public operations. -/
def applyGOps (ops : List GOp) (s : GState) : GState :=
  ops.foldl applyGOp s

/-- No public operation ever turns the frozen flag off. -/
theorem applyGOp_frozen (s : GState) (op : GOp) (h : s.frozen = true) :
    (applyGOp s op).frozen = true := by
  cases op <;>
    simp_all [applyGOp, mkLayer, mkNode, addEdge, removeEdgeOp, removeChildOp,
      destroy, freeze]

/-- **C5** (confirmed): mutability is one-directional.  After `freeze`, no
sequence of public Graph Store operations ever makes the passage mutable
again, and freezing an already-frozen passage is an identity (idempotent,
no error). -/
theorem c5_freeze_one_directional_idempotent (s : GState) (ops : List GOp) :
    (applyGOps ops (freeze s)).frozen = true ∧ freeze (freeze s) = freeze s := by
  constructor
  · have main : ∀ (l : List GOp) (t : GState), t.frozen = true →
        (applyGOps l t).frozen = true := by
      intro l
      induction l with
      | nil => intro t ht; exact ht
      | cons op rest ih =>
        intro t ht
        exact ih (applyGOp t op) (applyGOp_frozen t op ht)
    exact main ops (freeze s) rfl
  · rfl

/-! ## Adjacency membership after add/remove (C4) -/

/-- `insertLe` produces a permutation of consing. -/
theorem insertLe_perm (le : α → α → Bool) (a : α) (l : List α) :
    (insertLe le a l).Perm (a :: l) := by
  induction l with
  | nil => exact List.Perm.refl _
  | cons b l ih =>
    simp only [insertLe]
    split
    · exact List.Perm.refl _
    · exact (ih.cons b).trans (List.Perm.swap a b l)

/-- `isortBy` produces a permutation of its input (Python `list.sort`). -/
theorem isortBy_perm (le : α → α → Bool) (l : List α) :
    (isortBy le l).Perm l := by
  induction l with
  | nil => exact List.Perm.refl _
  | cons a l ih =>
    exact (insertLe_perm le a (isortBy le l)).trans (ih.cons a)

theorem mem_isortBy {le : α → α → Bool} {l : List α} {a : α} :
    a ∈ isortBy le l ↔ a ∈ l :=
  (isortBy_perm le l).mem_iff

/-- Pointwise view of a node-heap update. -/
theorem updNode_nheap_apply (s : GState) (n : NID) (f : NodeObj → NodeObj) (m : NID) :
    (updNode s n f).nheap m = if m = n then f (s.nheap m) else s.nheap m := by
  by_cases h : m = n <;> simp [updNode, h]

theorem updNode_layers (s : GState) (n : NID) (f : NodeObj → NodeObj) :
    (updNode s n f).layers = s.layers := rfl

theorem updNode_edges (s : GState) (n : NID) (f : NodeObj → NodeObj) :
    (updNode s n f).edges = s.edges := rfl

theorem updNode_frozen (s : GState) (n : NID) (f : NodeObj → NodeObj) :
    (updNode s n f).frozen = s.frozen := rfl

theorem updLayer_nheap (s : GState) (lid : String) (f : LayerObj → LayerObj) :
    (updLayer s lid f).nheap = s.nheap := rfl

theorem updLayer_edges (s : GState) (lid : String) (f : LayerObj → LayerObj) :
    (updLayer s lid f).edges = s.edges := rfl

theorem updLayer_frozen (s : GState) (lid : String) (f : LayerObj → LayerObj) :
    (updLayer s lid f).frozen = s.frozen := rfl

/-- A layer present before an `updLayer` is present after it. -/
theorem updLayer_isSome (s : GState) (lid : String) (f : LayerObj → LayerObj) (x : String) :
    ((updLayer s lid f).layers x).isSome = (s.layers x).isSome := by
  by_cases h : x = lid <;> simp [updLayer, h]

/-- Updating only the `incoming` field never changes any `outgoing` list. -/
theorem updNode_incoming_keeps_outgoing (s : GState) (n : NID) (g : NodeObj → List Nat) (m : NID) :
    ((updNode s n (fun o => { o with incoming := g o })).nheap m).outgoing =
      (s.nheap m).outgoing := by
  rw [updNode_nheap_apply]; split <;> rfl

/-- Updating only the `outgoing` field never changes any `incoming` list. -/
theorem updNode_outgoing_keeps_incoming (s : GState) (n : NID) (g : NodeObj → List Nat) (m : NID) :
    ((updNode s n (fun o => { o with outgoing := g o })).nheap m).incoming =
      (s.nheap m).incoming := by
  rw [updNode_nheap_apply]; split <;> rfl


/-- `outgoing` after the two heap updates performed by `Node.add`. -/
theorem updNode2_outgoing (s : GState) (p c : NID)
    (f g : NodeObj → List Nat) (m : NID) :
    ((updNode (updNode s p (fun o => { o with outgoing := f o })) c
        (fun o => { o with incoming := g o })).nheap m).outgoing =
      if m = p then f (s.nheap p) else (s.nheap m).outgoing := by
  rw [updNode_incoming_keeps_outgoing, updNode_nheap_apply]
  split
  · rename_i h; subst h; rfl
  · rfl

/-- `incoming` after the two heap updates performed by `Node.add`. -/
theorem updNode2_incoming (s : GState) (p c : NID)
    (f g : NodeObj → List Nat) (m : NID) :
    ((updNode (updNode s p (fun o => { o with outgoing := f o })) c
        (fun o => { o with incoming := g o })).nheap m).incoming =
      if m = c then g ((updNode s p (fun o => { o with outgoing := f o })).nheap c)
      else (s.nheap m).incoming := by
  rw [updNode_nheap_apply]
  split
  · rename_i h; subst h; rfl
  · rw [updNode_outgoing_keeps_incoming]

/-- Projections of the `Node.add` adjacency stage. -/
theorem addEdgeS3_layers (s : GState) (p : NID) (tag : String) (c : NID) :
    (addEdgeS3 s p tag c).layers = s.layers := rfl

theorem addEdgeS3_edges (s : GState) (p : NID) (tag : String) (c : NID) :
    (addEdgeS3 s p tag c).edges = (s.nextEid, ⟨tag, p, c⟩) :: s.edges := rfl

theorem addEdgeS3_frozen (s : GState) (p : NID) (tag : String) (c : NID) :
    (addEdgeS3 s p tag c).frozen = s.frozen := rfl

theorem addEdgeS3_outgoing (s : GState) (p : NID) (tag : String) (c : NID) (m : NID) :
    ((addEdgeS3 s p tag c).nheap m).outgoing =
      if m = p then
        isortBy (ekeyLe (addEdgeS1 s p tag c)) ((s.nheap p).outgoing ++ [s.nextEid])
      else (s.nheap m).outgoing := by
  rw [addEdgeS3, updNode2_outgoing]; rfl

theorem addEdgeS3_incoming (s : GState) (p : NID) (tag : String) (c : NID) (m : NID) :
    ((addEdgeS3 s p tag c).nheap m).incoming =
      if m = c then
        isortBy (ekeyLe (addEdgeS1 s p tag c)) ((s.nheap c).incoming ++ [s.nextEid])
      else (s.nheap m).incoming := by
  rw [addEdgeS3, updNode2_incoming]
  split
  · rw [updNode_outgoing_keeps_incoming]; rfl
  · rfl

/-- Reduction of a successful `Node.add`. -/
theorem addEdge_reduce (s : GState) (p c : NID) (tag : String) (Lp Lc : LayerObj)
    (hf : s.frozen = false)
    (hLp : s.layers p.layer = some Lp) (hLc : s.layers c.layer = some Lc) :
    addEdge s p tag c =
      (if p.layer = c.layer then layerAddEdge (addEdgeS3 s p tag c) p.layer c
       else addEdgeS3 s p tag c, none) := by
  rw [addEdge, hf]
  simp only [Bool.false_eq_true, if_false, addEdgeS3_layers, hLp, hLc]
  split <;> rfl

/-- Characterisation of a successful `Node.add` on an unfrozen passage whose
two endpoint layers exist: no error, a fresh edge object, and adjacency
lists that are stable re-sorts of an append. -/
theorem addEdge_success (s : GState) (p c : NID) (tag : String) (Lp Lc : LayerObj)
    (hf : s.frozen = false)
    (hLp : s.layers p.layer = some Lp) (hLc : s.layers c.layer = some Lc) :
    (addEdge s p tag c).2 = none ∧
    (addEdge s p tag c).1.edges = (s.nextEid, ⟨tag, p, c⟩) :: s.edges ∧
    (addEdge s p tag c).1.frozen = false ∧
    (∀ x, ((addEdge s p tag c).1.layers x).isSome = (s.layers x).isSome) ∧
    (∃ le1 : Nat → Nat → Bool,
      ((addEdge s p tag c).1.nheap p).outgoing =
        isortBy le1 ((s.nheap p).outgoing ++ [s.nextEid])) ∧
    (∃ le2 : Nat → Nat → Bool,
      ((addEdge s p tag c).1.nheap c).incoming =
        isortBy le2 ((s.nheap c).incoming ++ [s.nextEid])) ∧
    (∀ m : NID, m ≠ p → ((addEdge s p tag c).1.nheap m).outgoing = (s.nheap m).outgoing) ∧
    (∀ m : NID, m ≠ c → ((addEdge s p tag c).1.nheap m).incoming = (s.nheap m).incoming) := by
  rw [addEdge_reduce s p c tag Lp Lc hf hLp hLc]
  have hnh : (if p.layer = c.layer then layerAddEdge (addEdgeS3 s p tag c) p.layer c
      else addEdgeS3 s p tag c).nheap = (addEdgeS3 s p tag c).nheap := by
    split
    · rw [layerAddEdge, updLayer_nheap]
    · rfl
  have hed : (if p.layer = c.layer then layerAddEdge (addEdgeS3 s p tag c) p.layer c
      else addEdgeS3 s p tag c).edges = (addEdgeS3 s p tag c).edges := by
    split
    · rw [layerAddEdge, updLayer_edges]
    · rfl
  have hfr : (if p.layer = c.layer then layerAddEdge (addEdgeS3 s p tag c) p.layer c
      else addEdgeS3 s p tag c).frozen = (addEdgeS3 s p tag c).frozen := by
    split
    · rw [layerAddEdge, updLayer_frozen]
    · rfl
  have hls : ∀ x, ((if p.layer = c.layer then layerAddEdge (addEdgeS3 s p tag c) p.layer c
      else addEdgeS3 s p tag c).layers x).isSome = ((addEdgeS3 s p tag c).layers x).isSome := by
    intro x
    split
    · rw [layerAddEdge, updLayer_isSome]
    · rfl
  refine ⟨rfl, ?_, ?_, ?_, ?_, ?_, ?_, ?_⟩
  · rw [hed, addEdgeS3_edges]
  · rw [hfr, addEdgeS3_frozen, hf]
  · intro x; rw [hls, addEdgeS3_layers]
  · exact ⟨_, by rw [hnh, addEdgeS3_outgoing, if_pos rfl]⟩
  · exact ⟨_, by rw [hnh, addEdgeS3_incoming, if_pos rfl]⟩
  · intro m hm; rw [hnh, addEdgeS3_outgoing, if_neg hm]
  · intro m hm; rw [hnh, addEdgeS3_incoming, if_neg hm]

theorem edgeOf_updNode (s : GState) (n : NID) (f : NodeObj → NodeObj) (eid : Nat) :
    edgeOf (updNode s n f) eid = edgeOf s eid := rfl

/-- Characterisation of a successful `Node.remove(edge)`: the edge is erased
from both endpoints' adjacency lists and the edge heap is untouched. -/
theorem removeEdgeOp_success (t : GState) (p : NID) (eid : Nat) (ed : EdgeData)
    (Lp Lc : LayerObj)
    (hf : t.frozen = false)
    (hmem : (t.nheap p).outgoing.contains eid = true)
    (hlook : edgeOf t eid = some ed)
    (hinc : (t.nheap ed.child).incoming.contains eid = true)
    (hLp : t.layers p.layer = some Lp) (hLc : t.layers ed.child.layer = some Lc) :
    (removeEdgeOp t p eid).2 = none ∧
    (removeEdgeOp t p eid).1.edges = t.edges ∧
    ((removeEdgeOp t p eid).1.nheap p).outgoing = ((t.nheap p).outgoing).erase eid ∧
    ((removeEdgeOp t p eid).1.nheap ed.child).incoming =
      ((t.nheap ed.child).incoming).erase eid := by
  have hcommon : removeEdgeOp t p eid = removeEdgeCommon t p eid := by
    rw [removeEdgeOp, hf]
    simp only [Bool.false_eq_true, if_false, hmem, if_true]
  have hinc' : ((updNode t p (fun o => { o with outgoing := o.outgoing.erase eid })).nheap
      ed.child).incoming.contains eid = true := by
    rw [updNode_outgoing_keeps_incoming]; exact hinc
  rw [hcommon, removeEdgeCommon]
  simp only [edgeOf_updNode, hlook, hinc', if_true, updNode_layers, hLp, hLc]
  have houtg : ∀ u : GState,
      ((updNode (updNode t p (fun o => { o with outgoing := o.outgoing.erase eid }))
        ed.child (fun o => { o with incoming := o.incoming.erase eid })).nheap p).outgoing =
      ((t.nheap p).outgoing).erase eid := by
    intro _
    rw [updNode_incoming_keeps_outgoing, updNode_nheap_apply, if_pos rfl]
  have hincg :
      ((updNode (updNode t p (fun o => { o with outgoing := o.outgoing.erase eid }))
        ed.child (fun o => { o with incoming := o.incoming.erase eid })).nheap
          ed.child).incoming =
      ((t.nheap ed.child).incoming).erase eid := by
    rw [updNode_nheap_apply, if_pos rfl, updNode_outgoing_keeps_incoming]
  split
  · exact ⟨rfl, rfl, by rw [layerRemoveEdge, updLayer_nheap]; exact houtg t,
      by rw [layerRemoveEdge, updLayer_nheap]; exact hincg⟩
  · exact ⟨rfl, rfl, houtg t, hincg⟩

theorem lookup_cons_ne {α : Type} (a k : Nat) (d : α) (l : List (Nat × α)) (h : a ≠ k) :
    List.lookup a ((k, d) :: l) = List.lookup a l := by
  have hb : (a == k) = false := beq_eq_false_iff_ne.mpr h
  simp [List.lookup, hb]

theorem lookup_cons_self {α : Type} (a : Nat) (d : α) (l : List (Nat × α)) :
    List.lookup a ((a, d) :: l) = some d := by
  simp [List.lookup]

/-- Erasing a fresh element from a stable sort of an appended list recovers
the original list up to permutation. -/
theorem erase_isortBy_append_fresh {le : Nat → Nat → Bool} {l : List Nat} {a : Nat}
    (h : a ∉ l) : ((isortBy le (l ++ [a])).erase a).Perm l := by
  have h1 := (isortBy_perm le (l ++ [a])).erase a
  rwa [List.erase_append_right _ h, List.erase_cons_head, List.append_nil] at h1

/-- C4 counterexample trace: a pre-existing parallel edge `1.1→1.2` (edge 0),
then the add under test creating edge 1. -/
def c4Added : GState × Option PyErr :=
  addEdge (opState (addEdge baseABC ⟨"1", 1⟩ "T" ⟨"1", 2⟩)) ⟨"1", 1⟩ "T" ⟨"1", 2⟩

/-- ... and the matching remove, given the created edge (edge 1). -/
def c4Removed : GState × Option PyErr := removeEdgeOp c4Added.1 ⟨"1", 1⟩ 1

/-- ... or the matching remove, given the child node. -/
def c4RemovedByNode : GState × Option PyErr := removeChildOp c4Added.1 ⟨"1", 1⟩ ⟨"1", 2⟩

/-- **C4** (counterexample): with a parallel edge already in place, the
memberships survive the matching `remove` — whether the created edge or the
child node is passed — so the claim's "after the matching remove, child is
no longer in node.children and node is no longer in child.parents" is false
as stated. -/
theorem c4_counterexample_parallel_edge :
    c4Added.2 = none ∧
    (⟨"1", 2⟩ : NID) ∈ childrenOfNode c4Added.1 ⟨"1", 1⟩ ∧
    (⟨"1", 1⟩ : NID) ∈ parentsOfNode c4Added.1 ⟨"1", 2⟩ ∧
    c4Removed.2 = none ∧
    (⟨"1", 2⟩ : NID) ∈ childrenOfNode c4Removed.1 ⟨"1", 1⟩ ∧
    (⟨"1", 1⟩ : NID) ∈ parentsOfNode c4Removed.1 ⟨"1", 2⟩ ∧
    c4RemovedByNode.2 = none ∧
    (⟨"1", 2⟩ : NID) ∈ childrenOfNode c4RemovedByNode.1 ⟨"1", 1⟩ ∧
    (⟨"1", 1⟩ : NID) ∈ parentsOfNode c4RemovedByNode.1 ⟨"1", 2⟩ := by
  refine ⟨by decide, by decide, by decide, by decide, by decide, by decide, by decide,
    by decide, by decide⟩

theorem find_eq_of_unique {l : List Nat} {f : Nat → Bool} {a : Nat}
    (ha : a ∈ l) (hpa : f a = true)
    (hothers : ∀ x ∈ l, x ≠ a → f x = false) :
    l.find? f = some a := by
  induction l with
  | nil => cases ha
  | cons b l ih =>
    by_cases hb : b = a
    · subst hb
      rw [List.find?_cons_of_pos _ hpa]
    · have hfb : f b = false := hothers b (List.mem_cons_self _ _) hb
      rw [List.find?_cons_of_neg _ (by rw [hfb]; exact Bool.false_ne_true)]
      have hmem : a ∈ l := by
        rcases List.mem_cons.mp ha with rfl | h
        · exact absurd rfl hb
        · exact h
      exact ih hmem (fun x hx hne => hothers x (List.mem_cons_of_mem _ hx) hne)

/-- **C4** (amended): after `node.add(tag, child)` the memberships
`child ∈ node.children` and `node ∈ child.parents` hold; and the matching
`node.remove` — given either the created edge or the child node — removes
both memberships **provided that edge is the only edge from node to
child** (no parallel edge existed before).  The freshness hypotheses say
every edge key already stored in the two adjacency lists predates the new
edge object. -/
theorem c4_amended_add_remove_memberships (s : GState) (p c : NID) (tag : String)
    (Lp Lc : LayerObj)
    (hf : s.frozen = false)
    (hLp : s.layers p.layer = some Lp) (hLc : s.layers c.layer = some Lc)
    (hfp : ∀ eid ∈ (s.nheap p).outgoing, eid < s.nextEid)
    (hfc : ∀ eid ∈ (s.nheap c).incoming, eid < s.nextEid) :
    (addEdge s p tag c).2 = none ∧
    c ∈ childrenOfNode (addEdge s p tag c).1 p ∧
    p ∈ parentsOfNode (addEdge s p tag c).1 c ∧
    ((∀ eid ∈ (s.nheap p).outgoing, (edgeOf s eid).map EdgeData.child ≠ some c) →
     (∀ eid ∈ (s.nheap c).incoming, (edgeOf s eid).map EdgeData.parent ≠ some p) →
       (removeEdgeOp (addEdge s p tag c).1 p s.nextEid).2 = none ∧
       c ∉ childrenOfNode (removeEdgeOp (addEdge s p tag c).1 p s.nextEid).1 p ∧
       p ∉ parentsOfNode (removeEdgeOp (addEdge s p tag c).1 p s.nextEid).1 c ∧
       (removeChildOp (addEdge s p tag c).1 p c).2 = none ∧
       c ∉ childrenOfNode (removeChildOp (addEdge s p tag c).1 p c).1 p ∧
       p ∉ parentsOfNode (removeChildOp (addEdge s p tag c).1 p c).1 c) := by
  obtain ⟨h1, h2, h3, h4, ⟨le1, h5⟩, ⟨le2, h6⟩, h7, h8⟩ :=
    addEdge_success s p c tag Lp Lc hf hLp hLc
  have hlook : edgeOf (addEdge s p tag c).1 s.nextEid = some ⟨tag, p, c⟩ := by
    rw [edgeOf, h2, lookup_cons_self]
  have hmemo : s.nextEid ∈ ((addEdge s p tag c).1.nheap p).outgoing := by
    rw [h5, mem_isortBy]
    exact List.mem_append_right _ (List.mem_singleton.mpr rfl)
  have hmemi : s.nextEid ∈ ((addEdge s p tag c).1.nheap c).incoming := by
    rw [h6, mem_isortBy]
    exact List.mem_append_right _ (List.mem_singleton.mpr rfl)
  refine ⟨h1, ?_, ?_, ?_⟩
  · exact List.mem_filterMap.mpr ⟨s.nextEid, hmemo, by rw [hlook]; rfl⟩
  · exact List.mem_filterMap.mpr ⟨s.nextEid, hmemi, by rw [hlook]; rfl⟩
  intro hno1 hno2
  have hlookAdd : ∀ eid : Nat, eid ≠ s.nextEid →
      edgeOf (addEdge s p tag c).1 eid = edgeOf s eid := by
    intro eid hne
    rw [edgeOf, h2, lookup_cons_ne _ _ _ _ hne]
    rfl
  obtain ⟨Lp2, hLp2⟩ := Option.isSome_iff_exists.mp (by rw [h4 p.layer, hLp]; rfl)
  obtain ⟨Lc2, hLc2⟩ := Option.isSome_iff_exists.mp (by rw [h4 c.layer, hLc]; rfl)
  obtain ⟨r1, r2, r3, r4⟩ :=
    removeEdgeOp_success (addEdge s p tag c).1 p s.nextEid ⟨tag, p, c⟩ Lp2 Lc2 h3
      (List.elem_eq_true_of_mem hmemo) hlook (List.elem_eq_true_of_mem hmemi) hLp2 hLc2
  have hfreshO : s.nextEid ∉ (s.nheap p).outgoing := fun hmem => lt_irrefl _ (hfp _ hmem)
  have hfreshI : s.nextEid ∉ (s.nheap c).incoming := fun hmem => lt_irrefl _ (hfc _ hmem)
  have hpermO : (((removeEdgeOp (addEdge s p tag c).1 p s.nextEid).1.nheap p).outgoing).Perm
      (s.nheap p).outgoing := by
    rw [r3, h5]; exact erase_isortBy_append_fresh hfreshO
  have hpermI : (((removeEdgeOp (addEdge s p tag c).1 p s.nextEid).1.nheap c).incoming).Perm
      (s.nheap c).incoming := by
    rw [r4, h6]; exact erase_isortBy_append_fresh hfreshI
  have hlookOld : ∀ eid : Nat, eid ≠ s.nextEid →
      edgeOf (removeEdgeOp (addEdge s p tag c).1 p s.nextEid).1 eid = edgeOf s eid := by
    intro eid hne
    rw [edgeOf, r2, h2, lookup_cons_ne _ _ _ _ hne]; rfl
  have hq2 : c ∉ childrenOfNode (removeEdgeOp (addEdge s p tag c).1 p s.nextEid).1 p := by
    intro hc
    obtain ⟨eid, hmem, heq⟩ := List.mem_filterMap.mp hc
    have hmem2 : eid ∈ (s.nheap p).outgoing := hpermO.mem_iff.mp hmem
    have hne : eid ≠ s.nextEid := Nat.ne_of_lt (hfp _ hmem2)
    rw [hlookOld eid hne] at heq
    exact hno1 eid hmem2 heq
  have hq3 : p ∉ parentsOfNode (removeEdgeOp (addEdge s p tag c).1 p s.nextEid).1 c := by
    intro hc
    obtain ⟨eid, hmem, heq⟩ := List.mem_filterMap.mp hc
    have hmem2 : eid ∈ (s.nheap c).incoming := hpermI.mem_iff.mp hmem
    have hne : eid ≠ s.nextEid := Nat.ne_of_lt (hfc _ hmem2)
    rw [hlookOld eid hne] at heq
    exact hno2 eid hmem2 heq
  have hpredT : ((edgeOf (addEdge s p tag c).1 s.nextEid).map EdgeData.child ==
      some c) = true := by
    rw [hlook]
    exact beq_self_eq_true _
  have hfind : ((addEdge s p tag c).1.nheap p).outgoing.find?
      (fun eid => (edgeOf (addEdge s p tag c).1 eid).map EdgeData.child == some c) =
      some s.nextEid := by
    apply find_eq_of_unique hmemo hpredT
    intro x hx hne
    have hx2 : x ∈ (s.nheap p).outgoing := by
      rw [h5, mem_isortBy] at hx
      rcases List.mem_append.mp hx with hxx | hxx
      · exact hxx
      · exact absurd (List.mem_singleton.mp hxx) hne
    rw [hlookAdd x hne]
    exact beq_eq_false_iff_ne.mpr (hno1 x hx2)
  have hcont : ((addEdge s p tag c).1.nheap p).outgoing.contains s.nextEid = true :=
    List.elem_eq_true_of_mem hmemo
  have hrc : removeChildOp (addEdge s p tag c).1 p c =
      removeEdgeCommon (addEdge s p tag c).1 p s.nextEid := by
    rw [removeChildOp, h3]
    simp only [Bool.false_eq_true, if_false, hfind]
  have hre : removeEdgeOp (addEdge s p tag c).1 p s.nextEid =
      removeEdgeCommon (addEdge s p tag c).1 p s.nextEid := by
    rw [removeEdgeOp, h3]
    simp only [Bool.false_eq_true, if_false, hcont, if_true]
  refine ⟨r1, hq2, hq3, ?_, ?_, ?_⟩
  · rw [hrc, ← hre]
    exact r1
  · rw [hrc, ← hre]
    exact hq2
  · rw [hrc, ← hre]
    exact hq3

/-- Witness for the amended C4 at a concrete passage (two fresh nodes in
layer `"1"`, no prior edges), exercising both the created-edge and the
child-node forms of `remove`. -/
theorem c4_amended_witness :
    baseABC.frozen = false ∧
    (addEdge baseABC ⟨"1", 1⟩ "T" ⟨"1", 2⟩).2 = none ∧
    ((⟨"1", 2⟩ : NID) ∉ childrenOfNode
      (removeEdgeOp (addEdge baseABC ⟨"1", 1⟩ "T" ⟨"1", 2⟩).1 ⟨"1", 1⟩
        baseABC.nextEid).1 ⟨"1", 1⟩) ∧
    (removeChildOp (addEdge baseABC ⟨"1", 1⟩ "T" ⟨"1", 2⟩).1 ⟨"1", 1⟩ ⟨"1", 2⟩).2 =
      none ∧
    ((⟨"1", 2⟩ : NID) ∉ childrenOfNode
      (removeChildOp (addEdge baseABC ⟨"1", 1⟩ "T" ⟨"1", 2⟩).1 ⟨"1", 1⟩
        ⟨"1", 2⟩).1 ⟨"1", 1⟩) ∧
    ((⟨"1", 1⟩ : NID) ∉ parentsOfNode
      (removeChildOp (addEdge baseABC ⟨"1", 1⟩ "T" ⟨"1", 2⟩).1 ⟨"1", 1⟩
        ⟨"1", 2⟩).1 ⟨"1", 2⟩) :=
  ⟨rfl,
   (c4_amended_add_remove_memberships baseABC ⟨"1", 1⟩ ⟨"1", 2⟩ "T"
      ⟨[⟨"1", 1⟩, ⟨"1", 2⟩, ⟨"1", 3⟩], [⟨"1", 1⟩, ⟨"1", 2⟩, ⟨"1", 3⟩]⟩
      ⟨[⟨"1", 1⟩, ⟨"1", 2⟩, ⟨"1", 3⟩], [⟨"1", 1⟩, ⟨"1", 2⟩, ⟨"1", 3⟩]⟩
      (by decide) (by decide) (by decide) (by decide) (by decide)).1,
   ((c4_amended_add_remove_memberships baseABC ⟨"1", 1⟩ ⟨"1", 2⟩ "T"
      ⟨[⟨"1", 1⟩, ⟨"1", 2⟩, ⟨"1", 3⟩], [⟨"1", 1⟩, ⟨"1", 2⟩, ⟨"1", 3⟩]⟩
      ⟨[⟨"1", 1⟩, ⟨"1", 2⟩, ⟨"1", 3⟩], [⟨"1", 1⟩, ⟨"1", 2⟩, ⟨"1", 3⟩]⟩
      (by decide) (by decide) (by decide) (by decide) (by decide)).2.2.2
      (by decide) (by decide)).2.1,
   ((c4_amended_add_remove_memberships baseABC ⟨"1", 1⟩ ⟨"1", 2⟩ "T"
      ⟨[⟨"1", 1⟩, ⟨"1", 2⟩, ⟨"1", 3⟩], [⟨"1", 1⟩, ⟨"1", 2⟩, ⟨"1", 3⟩]⟩
      ⟨[⟨"1", 1⟩, ⟨"1", 2⟩, ⟨"1", 3⟩], [⟨"1", 1⟩, ⟨"1", 2⟩, ⟨"1", 3⟩]⟩
      (by decide) (by decide) (by decide) (by decide) (by decide)).2.2.2
      (by decide) (by decide)).2.2.2.1,
   ((c4_amended_add_remove_memberships baseABC ⟨"1", 1⟩ ⟨"1", 2⟩ "T"
      ⟨[⟨"1", 1⟩, ⟨"1", 2⟩, ⟨"1", 3⟩], [⟨"1", 1⟩, ⟨"1", 2⟩, ⟨"1", 3⟩]⟩
      ⟨[⟨"1", 1⟩, ⟨"1", 2⟩, ⟨"1", 3⟩], [⟨"1", 1⟩, ⟨"1", 2⟩, ⟨"1", 3⟩]⟩
      (by decide) (by decide) (by decide) (by decide) (by decide)).2.2.2
      (by decide) (by decide)).2.2.2.2.1,
   ((c4_amended_add_remove_memberships baseABC ⟨"1", 1⟩ ⟨"1", 2⟩ "T"
      ⟨[⟨"1", 1⟩, ⟨"1", 2⟩, ⟨"1", 3⟩], [⟨"1", 1⟩, ⟨"1", 2⟩, ⟨"1", 3⟩]⟩
      ⟨[⟨"1", 1⟩, ⟨"1", 2⟩, ⟨"1", 3⟩], [⟨"1", 1⟩, ⟨"1", 2⟩, ⟨"1", 3⟩]⟩
      (by decide) (by decide) (by decide) (by decide) (by decide)).2.2.2
      (by decide) (by decide)).2.2.2.2.2⟩

/-! ## List accessors return copies (C10) -/

/-- A store of Python list objects, for the aliasing question of the `all`
and `heads` accessors: references are allocation-ordered naturals. -/
structure ListStore where
  next : Nat
  mem : Nat → List NID

/-- The two list objects owned by one `core.Layer`: `_all` and `_heads`. -/
structure PyLayerRefs where
  allRef : Nat
  headsRef : Nat

/-- `Layer.all`: `return self._all[:]` — allocate a fresh list object holding
a copy of the current contents of `_all` and return the new reference. -/
def layerAllProp (σ : ListStore) (L : PyLayerRefs) : Nat × ListStore :=
  (σ.next, ⟨σ.next + 1, fun r => if r = σ.next then σ.mem L.allRef else σ.mem r⟩)

/-- `Layer.heads`: `return self._heads[:]`. -/
def layerHeadsProp (σ : ListStore) (L : PyLayerRefs) : Nat × ListStore :=
  (σ.next, ⟨σ.next + 1, fun r => if r = σ.next then σ.mem L.headsRef else σ.mem r⟩)

/-- An arbitrary caller-side mutation of the list object behind `r`. -/
def listWrite (σ : ListStore) (r : Nat) (v : List NID) : ListStore :=
  ⟨σ.next, fun x => if x = r then v else σ.mem x⟩

/-- **C10** (confirmed): `Layer.all` and `Layer.heads` return fresh copies.
The returned reference holds the same contents as the internal list, is a
different object, any caller mutation of it leaves the layer's internal
list untouched, and a subsequent call to the same accessor still returns
the pre-mutation contents. -/
theorem c10_all_heads_accessors_return_copies (σ : ListStore) (L : PyLayerRefs)
    (hall : L.allRef < σ.next) (hheads : L.headsRef < σ.next) :
    (layerAllProp σ L).2.mem (layerAllProp σ L).1 = σ.mem L.allRef ∧
    (layerAllProp σ L).1 ≠ L.allRef ∧
    (∀ v : List NID,
      (listWrite (layerAllProp σ L).2 (layerAllProp σ L).1 v).mem L.allRef =
        σ.mem L.allRef ∧
      (layerAllProp (listWrite (layerAllProp σ L).2 (layerAllProp σ L).1 v) L).2.mem
          (layerAllProp (listWrite (layerAllProp σ L).2 (layerAllProp σ L).1 v) L).1 =
        σ.mem L.allRef) ∧
    (layerHeadsProp σ L).2.mem (layerHeadsProp σ L).1 = σ.mem L.headsRef ∧
    (layerHeadsProp σ L).1 ≠ L.headsRef ∧
    (∀ v : List NID,
      (listWrite (layerHeadsProp σ L).2 (layerHeadsProp σ L).1 v).mem L.headsRef =
        σ.mem L.headsRef ∧
      (layerHeadsProp (listWrite (layerHeadsProp σ L).2 (layerHeadsProp σ L).1 v) L).2.mem
          (layerHeadsProp (listWrite (layerHeadsProp σ L).2 (layerHeadsProp σ L).1 v) L).1 =
        σ.mem L.headsRef) := by
  have hne1 : L.allRef ≠ σ.next := Nat.ne_of_lt hall
  have hne2 : L.headsRef ≠ σ.next := Nat.ne_of_lt hheads
  refine ⟨by simp [layerAllProp], by simpa [layerAllProp] using hne1.symm, ?_,
    by simp [layerHeadsProp], by simpa [layerHeadsProp] using hne2.symm, ?_⟩
  · intro v
    constructor
    · simp [layerAllProp, listWrite, hne1]
    · simp [layerAllProp, listWrite, hne1]
  · intro v
    constructor
    · simp [layerHeadsProp, listWrite, hne2]
    · simp [layerHeadsProp, listWrite, hne2]

/-- Witness for C10 at a concrete two-list store. -/
theorem c10_witness :
    (0 : Nat) < 2 ∧ (1 : Nat) < 2 ∧
    (layerAllProp ⟨2, fun r => if r = 0 then [⟨"1", 1⟩] else []⟩ ⟨0, 1⟩).2.mem
        (layerAllProp ⟨2, fun r => if r = 0 then [⟨"1", 1⟩] else []⟩ ⟨0, 1⟩).1 =
      (⟨2, fun r => if r = 0 then [⟨"1", 1⟩] else []⟩ : ListStore).mem 0 :=
  ⟨by decide, by decide,
   (c10_all_heads_accessors_return_copies ⟨2, fun r => if r = 0 then [⟨"1", 1⟩] else []⟩
      ⟨0, 1⟩ (by decide) (by decide)).1⟩

/-! ## The Transition System (`parser/config.py`) -/

/-- A transient `config.Edge`: parent and child are indices into the
configuration's node list (standing for the Python object references),
plus the tag and the remote flag. -/
structure TEdge where
  parent : Nat
  child : Nat
  tag : Option String
  remote : Bool
deriving DecidableEq, Repr

/-- A transient `config.Node`: optional literal text (terminals), the
numeric part of the original gold ID when given (`node_index`), and the
transient adjacency lists. -/
structure TNode where
  text : Option String
  nodeIdx : Option Nat
  outgoing : List TEdge
  incoming : List TEdge
deriving DecidableEq, Repr

instance : Inhabited TNode := ⟨⟨none, none, [], []⟩⟩

/-- A `config.Configuration`: node list (a node's index is its position),
stack (Python list, top at the end), buffer (deque, front at the head) and
the root node's index. -/
structure Conf where
  nodes : List TNode
  stack : List Nat
  buffer : List Nat
  root : Nat
deriving DecidableEq, Repr

/-- Python's structural equality on transient nodes: `Node.__eq__` compares
`text` and the `outgoing` lists, whose elements are compared with
`Edge.__eq__`, which compares `child` (recursively via `Node.__eq__`),
`tag` and `remote` — but **not** `parent`.  The recursion is depth-bounded
by `fuel` (where the fuel runs out Python would blow the recursion limit,
which only happens on cyclic graphs). -/
def nodeEqF (ns : List TNode) : Nat → Nat → Nat → Bool
  | 0, _, _ => false
  | fuel + 1, i, j =>
    ((ns.getD i default).text == (ns.getD j default).text) &&
    ((ns.getD i default).outgoing.length == (ns.getD j default).outgoing.length) &&
    (((ns.getD i default).outgoing.zip (ns.getD j default).outgoing).all
      (fun pr => nodeEqF ns fuel pr.1.child pr.2.child && pr.1.tag == pr.2.tag &&
        pr.1.remote == pr.2.remote))

/-- Python's `Edge.__eq__`: child (structurally), tag and remote; the parent
is not compared. -/
def edgeEqF (ns : List TNode) (fuel : Nat) (e1 e2 : TEdge) : Bool :=
  nodeEqF ns fuel e1.child e2.child && e1.tag == e2.tag && e1.remote == e2.remote

/-- The recursion budget used for the structural comparisons: enough for any
acyclic configuration. -/
def eqFuel (ns : List TNode) : Nat := ns.length + 1

/-- Errors of the transition system: the four asserts of `Edge.add`, the
stack/buffer `IndexError`s, and the stack-buffer overlap assert. -/
inductive CErr where
  | assertNoTag
  | assertSelfLoop
  | assertDupOut
  | assertDupIn
  | indexError
  | assertOverlap
deriving DecidableEq, Repr

/-- Replace node `i`'s record (Python mutates the object in place). -/
def setTN (c : Conf) (i : Nat) (f : TNode → TNode) : Conf :=
  { c with nodes := c.nodes.set i (f (c.nodes.getD i default)) }

/-- `config.Edge.add`: the four asserts in source order — tag present,
`parent != child` (structural equality!), `self not in parent.outgoing`,
`self not in child.incoming` (both via `Edge.__eq__`) — then append the
edge to the parent's outgoing and the child's incoming lists. -/
def edgeAdd (c : Conf) (e : TEdge) : Conf × Option CErr :=
  if e.tag.isNone then (c, some .assertNoTag)
  else if nodeEqF c.nodes (eqFuel c.nodes) e.parent e.child then (c, some .assertSelfLoop)
  else if (c.nodes.getD e.parent default).outgoing.any
      (fun o => edgeEqF c.nodes (eqFuel c.nodes) o e) then (c, some .assertDupOut)
  else if (c.nodes.getD e.child default).incoming.any
      (fun o => edgeEqF c.nodes (eqFuel c.nodes) o e) then (c, some .assertDupIn)
  else
    (setTN (setTN c e.parent (fun o => { o with outgoing := o.outgoing ++ [e] }))
      e.child (fun o => { o with incoming := o.incoming ++ [e] }), none)

/-- `Configuration.add_node`: append a fresh non-terminal transient node and
return its index. -/
def addTransNode (c : Conf) (nodeIdx : Option Nat) : Conf × Nat :=
  ({ c with nodes := c.nodes ++ [⟨none, nodeIdx, [], []⟩] }, c.nodes.length)

/-- The `assert not set(self.stack).intersection(self.buffer)` check; node
hashes are their unique indices, so the intersection is on indices. -/
def stackBufferDisjoint (c : Conf) : Bool :=
  c.stack.all (fun i => !c.buffer.contains i)

/-- Every transient edge currently registered in an outgoing list. -/
def allTransEdges (c : Conf) : List TEdge := (c.nodes.map TNode.outgoing).flatten

/-- The actions recognised by `Configuration.apply_action`. -/
inductive PAction where
  | nodeA (tag : Option String) (nodeIdx : Option Nat)
  | edgeA (tag : Option String)
  | remoteA (tag : Option String)
  | rootA (tag : Option String)
  | reduceA
  | shiftA
  | swapA
  | wrapA
  | finishA
deriving DecidableEq, Repr

/-- The trailing overlap assert shared by every non-FINISH action. -/
def finishStep (c : Conf) : (Conf × Option CErr) × Option Bool :=
  if stackBufferDisjoint c then ((c, none), some true)
  else ((c, some .assertOverlap), none)

/-- `Configuration.apply_action`: one action at a time.  The boolean result
is `some b` when the Python function returns `b`, and `none` when it raises
(so no value is returned).  FINISH returns `False` immediately, skipping the
overlap assert; every other action mutates, then asserts disjointness and
returns `True`. -/
def applyAction (c : Conf) (a : PAction) : (Conf × Option CErr) × Option Bool :=
  match a with
  | .finishA => ((c, none), some false)
  | .nodeA tag nidx =>
    let c1 := (addTransNode c nidx).1
    let parent := (addTransNode c nidx).2
    if c.buffer.isEmpty then ((c1, some .indexError), none)
    else
      let r := edgeAdd c1 ⟨parent, c.buffer.getD 0 0, tag, false⟩
      if r.2.isSome then ((r.1, r.2), none)
      else finishStep { r.1 with stack := r.1.stack ++ [parent] }
  | .edgeA tag =>
    if c.stack.isEmpty then ((c, some .indexError), none)
    else if c.buffer.isEmpty then ((c, some .indexError), none)
    else
      let r := edgeAdd c ⟨c.stack.getD (c.stack.length - 1) 0, c.buffer.getD 0 0, tag, false⟩
      if r.2.isSome then ((r.1, r.2), none)
      else finishStep r.1
  | .remoteA tag =>
    if c.stack.isEmpty then ((c, some .indexError), none)
    else if c.buffer.isEmpty then ((c, some .indexError), none)
    else
      let r := edgeAdd c ⟨c.stack.getD (c.stack.length - 1) 0, c.buffer.getD 0 0, tag, true⟩
      if r.2.isSome then ((r.1, r.2), none)
      else finishStep r.1
  | .rootA tag =>
    if c.stack.isEmpty then ((c, some .indexError), none)
    else
      let top := c.stack.getD (c.stack.length - 1) 0
      let r := edgeAdd { c with stack := c.stack.dropLast } ⟨c.root, top, tag, false⟩
      if r.2.isSome then ((r.1, r.2), none)
      else finishStep r.1
  | .reduceA =>
    if c.stack.isEmpty then ((c, some .indexError), none)
    else finishStep { c with stack := c.stack.dropLast }
  | .shiftA =>
    if c.buffer.isEmpty then ((c, some .indexError), none)
    else finishStep { c with stack := c.stack ++ [c.buffer.getD 0 0], buffer := c.buffer.tail }
  | .swapA =>
    if c.stack.length < 2 then ((c, some .indexError), none)
    else
      let swapped := c.stack.take (c.stack.length - 2) ++
        [c.stack.getD (c.stack.length - 1) 0, c.stack.getD (c.stack.length - 2) 0]
      finishStep { c with stack := swapped }
  | .wrapA => finishStep { c with buffer := c.stack, stack := [] }

theorem any_congr_mem {α : Type} {l : List α} {f g : α → Bool}
    (h : ∀ x ∈ l, f x = g x) : l.any f = l.any g := by
  induction l with
  | nil => rfl
  | cons a l ih =>
    simp only [List.any_cons]
    rw [h a (List.mem_cons_self a l), ih (fun x hx => h x (List.mem_cons_of_mem a hx))]

/-- C6 counterexample configuration: three terminals with distinct texts. -/
def c6Conf : Conf :=
  ⟨[⟨some "a", none, [], []⟩, ⟨some "b", none, [], []⟩, ⟨some "c", none, [], []⟩],
   [], [], 0⟩

/-- ... after adding the transient edge `0→2` with tag `T`. -/
def c6After : Conf := (edgeAdd c6Conf ⟨0, 2, some "T", false⟩).1

/-- **C6** (counterexample): the new edge `1→2` (tag `T`, non-remote)
differs from the only existing transient edge `0→2` in its parent, so by
the claim it should be accepted; but `Edge.__eq__` ignores the parent, so
the `self not in child.incoming` assert fires and the addition fails. -/
theorem c6_counterexample_parent_ignored :
    (edgeAdd c6Conf ⟨0, 2, some "T", false⟩).2 = none ∧
    allTransEdges c6After = [⟨0, 2, some "T", false⟩] ∧
    (∀ o ∈ allTransEdges c6After, o ≠ ⟨1, 2, some "T", false⟩) ∧
    (∀ o ∈ allTransEdges c6After, o.parent ≠ 1) ∧
    (edgeAdd c6After ⟨1, 2, some "T", false⟩).2 = some .assertDupIn := by
  refine ⟨by decide, by decide, by decide, by decide, by decide⟩

/-- **C6** (amended): adding a transient edge fails exactly when the tag is
absent, or parent equals child under the structural node equality (same
text and same outgoing list), or the parent's outgoing list already holds
an `Edge.__eq__`-equal edge, or the child's incoming list already holds an
edge with the same tag and remote flag — **regardless of that edge's
parent**, since `Edge.__eq__` does not compare parents. -/
theorem c6_amended_edge_add_iff (c : Conf) (e : TEdge)
    (hwf : ∀ o ∈ (c.nodes.getD e.child default).incoming, o.child = e.child)
    (hrefl : nodeEqF c.nodes (eqFuel c.nodes) e.child e.child = true) :
    (edgeAdd c e).2.isSome = true ↔
      (e.tag = none ∨
       nodeEqF c.nodes (eqFuel c.nodes) e.parent e.child = true ∨
       (∃ o ∈ (c.nodes.getD e.parent default).outgoing,
         edgeEqF c.nodes (eqFuel c.nodes) o e = true) ∨
       (∃ o ∈ (c.nodes.getD e.child default).incoming,
         o.tag = e.tag ∧ o.remote = e.remote)) := by
  have hin : ((c.nodes.getD e.child default).incoming.any
      (fun o => edgeEqF c.nodes (eqFuel c.nodes) o e)) =
      ((c.nodes.getD e.child default).incoming.any
        (fun o => o.tag == e.tag && o.remote == e.remote)) := by
    apply any_congr_mem
    intro o ho
    rw [edgeEqF, hwf o ho, hrefl, Bool.true_and]
  have key : (edgeAdd c e).2.isSome =
      (e.tag.isNone || (nodeEqF c.nodes (eqFuel c.nodes) e.parent e.child ||
       ((c.nodes.getD e.parent default).outgoing.any
         (fun o => edgeEqF c.nodes (eqFuel c.nodes) o e) ||
       (c.nodes.getD e.child default).incoming.any
         (fun o => edgeEqF c.nodes (eqFuel c.nodes) o e)))) := by
    simp only [edgeAdd]
    cases htag : e.tag.isNone with
    | true => rw [if_pos rfl]; simp
    | false =>
      rw [if_neg Bool.false_ne_true]
      cases hself : nodeEqF c.nodes (eqFuel c.nodes) e.parent e.child with
      | true => rw [if_pos rfl]; simp
      | false =>
        rw [if_neg Bool.false_ne_true]
        cases hout : (c.nodes.getD e.parent default).outgoing.any
            (fun o => edgeEqF c.nodes (eqFuel c.nodes) o e) with
        | true => rw [if_pos rfl]; simp
        | false =>
          rw [if_neg Bool.false_ne_true]
          cases hinc : (c.nodes.getD e.child default).incoming.any
              (fun o => edgeEqF c.nodes (eqFuel c.nodes) o e) with
          | true => rw [if_pos rfl]; simp
          | false => rw [if_neg Bool.false_ne_true]; simp
  rw [key, hin]
  simp only [Bool.or_eq_true, List.any_eq_true, Bool.and_eq_true, beq_iff_eq,
    Option.isNone_iff_eq_none]

/-- Witness for the amended C6 at the concrete configuration: the incoming
check fires although the proposed edge's parent differs. -/
theorem c6_amended_witness :
    (∀ o ∈ ((c6After.nodes.getD 2 default).incoming), o.child = 2) ∧
    ((edgeAdd c6After ⟨1, 2, some "T", false⟩).2.isSome = true ↔
      ((some "T" : Option String) = none ∨
       nodeEqF c6After.nodes (eqFuel c6After.nodes) 1 2 = true ∨
       (∃ o ∈ (c6After.nodes.getD 1 default).outgoing,
         edgeEqF c6After.nodes (eqFuel c6After.nodes) o ⟨1, 2, some "T", false⟩ = true) ∨
       (∃ o ∈ (c6After.nodes.getD 2 default).incoming,
         o.tag = some "T" ∧ o.remote = false))) :=
  ⟨by decide, c6_amended_edge_add_iff c6After ⟨1, 2, some "T", false⟩ (by decide) (by decide)⟩

/-- A `finishStep` that did not raise returned `True`. -/
theorem finishStep_ok (c' : Conf) (h : (finishStep c').1.2 = none) :
    (finishStep c').2 = some true := by
  rw [finishStep] at h ⊢
  cases hd : stackBufferDisjoint c' with
  | true => rw [if_pos rfl]
  | false =>
    rw [hd, if_neg Bool.false_ne_true] at h
    exact Option.noConfusion h

/-- **C9** (confirmed): whenever `apply_action` completes without raising
(the precondition of the attempted action holds), it returns `False`
exactly for FINISH — which leaves the configuration untouched — and `True`
for every other recognised action. -/
theorem c9_apply_action_returns_false_iff_finish (c : Conf) (a : PAction)
    (h : (applyAction c a).1.2 = none) :
    ((applyAction c a).2 = some false ↔ a = .finishA) ∧
    (a = .finishA → (applyAction c a).1.1 = c) ∧
    (a ≠ .finishA → (applyAction c a).2 = some true) := by
  cases a with
  | finishA => exact ⟨by simp [applyAction], fun _ => rfl, fun hne => absurd rfl hne⟩
  | nodeA tag nidx =>
    have hret : (applyAction c (.nodeA tag nidx)).2 = some true := by
      simp only [applyAction] at h ⊢
      split at h
      next hcond => simp at h
      next hcond =>
        rw [if_neg hcond]
        split at h
        next hcond2 => simp at h; simp [h] at hcond2
        next hcond2 =>
          rw [if_neg hcond2]
          exact finishStep_ok _ h
    exact ⟨by rw [hret]; simp, nofun, fun _ => hret⟩
  | edgeA tag =>
    have hret : (applyAction c (.edgeA tag)).2 = some true := by
      simp only [applyAction] at h ⊢
      split at h
      next hcond => simp at h
      next hcond =>
        rw [if_neg hcond]
        split at h
        next hcond1 => simp at h
        next hcond1 =>
          rw [if_neg hcond1]
          split at h
          next hcond2 => simp at h; simp [h] at hcond2
          next hcond2 =>
            rw [if_neg hcond2]
            exact finishStep_ok _ h
    exact ⟨by rw [hret]; simp, nofun, fun _ => hret⟩
  | remoteA tag =>
    have hret : (applyAction c (.remoteA tag)).2 = some true := by
      simp only [applyAction] at h ⊢
      split at h
      next hcond => simp at h
      next hcond =>
        rw [if_neg hcond]
        split at h
        next hcond1 => simp at h
        next hcond1 =>
          rw [if_neg hcond1]
          split at h
          next hcond2 => simp at h; simp [h] at hcond2
          next hcond2 =>
            rw [if_neg hcond2]
            exact finishStep_ok _ h
    exact ⟨by rw [hret]; simp, nofun, fun _ => hret⟩
  | rootA tag =>
    have hret : (applyAction c (.rootA tag)).2 = some true := by
      simp only [applyAction] at h ⊢
      split at h
      next hcond => simp at h
      next hcond =>
        rw [if_neg hcond]
        split at h
        next hcond2 => simp at h; simp [h] at hcond2
        next hcond2 =>
          rw [if_neg hcond2]
          exact finishStep_ok _ h
    exact ⟨by rw [hret]; simp, nofun, fun _ => hret⟩
  | reduceA =>
    have hret : (applyAction c .reduceA).2 = some true := by
      simp only [applyAction] at h ⊢
      split at h
      next hcond => simp at h
      next hcond =>
        rw [if_neg hcond]
        exact finishStep_ok _ h
    exact ⟨by rw [hret]; simp, nofun, fun _ => hret⟩
  | shiftA =>
    have hret : (applyAction c .shiftA).2 = some true := by
      simp only [applyAction] at h ⊢
      split at h
      next hcond => simp at h
      next hcond =>
        rw [if_neg hcond]
        exact finishStep_ok _ h
    exact ⟨by rw [hret]; simp, nofun, fun _ => hret⟩
  | swapA =>
    have hret : (applyAction c .swapA).2 = some true := by
      simp only [applyAction] at h ⊢
      split at h
      next hcond => simp at h
      next hcond =>
        rw [if_neg hcond]
        exact finishStep_ok _ h
    exact ⟨by rw [hret]; simp, nofun, fun _ => hret⟩
  | wrapA =>
    have hret : (applyAction c .wrapA).2 = some true := by
      simp only [applyAction] at h ⊢
      exact finishStep_ok _ h
    exact ⟨by rw [hret]; simp, nofun, fun _ => hret⟩

/-- Witness for C9: a SHIFT on a one-token configuration succeeds and
returns `True`; FINISH returns `False` and changes nothing. -/
theorem c9_witness :
    (applyAction ⟨[⟨some "x", none, [], []⟩], [], [0], 0⟩ .shiftA).1.2 = none ∧
    (applyAction ⟨[⟨some "x", none, [], []⟩], [], [0], 0⟩ .shiftA).2 = some true ∧
    (applyAction ⟨[⟨some "x", none, [], []⟩], [], [0], 0⟩ .finishA).2 = some false :=
  ⟨by decide,
   (c9_apply_action_returns_false_iff_finish ⟨[⟨some "x", none, [], []⟩], [], [0], 0⟩
      .shiftA (by decide)).2.2 (by decide),
   (c9_apply_action_returns_false_iff_finish ⟨[⟨some "x", none, [], []⟩], [], [0], 0⟩
      .finishA (by decide)).1.mpr rfl⟩

/-! ## `Configuration.topological_sort` (C7) -/

/-- The transient node graph seen by `topological_sort`: node count, the
list of (parent, child) pairs of the transient edges (kept in insertion
order, as the per-node `incoming` lists are), and the within-level sort key
`node_index or index`. -/
structure TGraph where
  nodesN : Nat
  tedges : List (Nat × Nat)
  key : Nat → Nat

/-- `[edge.parent for edge in node.incoming]` — in insertion order. -/
def tparents (g : TGraph) (i : Nat) : List Nat :=
  (g.tedges.filter (fun e => e.2 == i)).map Prod.fst

/-- `not node.outgoing`: node `i` has no outgoing transient edge. -/
def childless (g : TGraph) (i : Nat) : Bool :=
  g.tedges.all (fun e => e.1 != i)

/-- The loop state of `topological_sort`: `level_by_index` (an insert-only
association list in leveling order, which also plays the role of the
`levels` dict) and the work stack (`stack.pop()` pops the head here, so the
list is kept top-first). -/
structure TSState where
  levels : List (Nat × Nat)
  stack : List Nat
deriving DecidableEq, Repr

/-- `level_by_index` lookup. -/
def levelOfL (L : List (Nat × Nat)) (i : Nat) : Option Nat := L.lookup i

/-- `node.index in level_by_index`. -/
def leveledL (L : List (Nat × Nat)) (i : Nat) : Bool := (levelOfL L i).isSome

/-- `max(level_by_index[parent.index] for parent in parents)` (as a fold
with neutral 0; levels are naturals, so this is the Python `max` for a
non-empty parent list). -/
def pmaxL (L : List (Nat × Nat)) (ps : List Nat) : Nat :=
  (ps.map (fun p => (levelOfL L p).getD 0)).foldl max 0

/-- One iteration of the `while stack` loop of `topological_sort`:
pop a node; skip it if already leveled; level it at 0 when parentless; level
it at `1 + max(parent levels)` when all parents are leveled; otherwise
re-push it paired with each unexplored parent. -/
def tsStep (g : TGraph) (st : TSState) : TSState :=
  match st.stack with
  | [] => st
  | x :: rest =>
    if leveledL st.levels x then ⟨st.levels, rest⟩
    else
      let ps := tparents g x
      if ps.isEmpty then ⟨st.levels ++ [(x, 0)], rest⟩
      else
        let unexp := ps.filter (fun p => !leveledL st.levels p)
        if unexp.isEmpty then ⟨st.levels ++ [(x, 1 + pmaxL st.levels ps)], rest⟩
        else ⟨st.levels, unexp.foldl (fun acc p => p :: x :: acc) rest⟩

/-- The initial stack: `[node for node in self.nodes if not node.outgoing]`,
reversed because Python pops from the end. -/
def initTS (g : TGraph) : TSState :=
  ⟨[], ((List.range g.nodesN).filter (fun i => childless g i)).reverse⟩

/-- Run the loop for `fuel` iterations or until the stack empties. -/
def tsRun (g : TGraph) : Nat → TSState → TSState
  | 0, st => st
  | fuel + 1, st => if st.stack.isEmpty then st else tsRun g fuel (tsStep g st)

/-- The largest level assigned (`sorted(levels.items())` runs up to it). -/
def maxLevelTS (st : TSState) : Nat := (st.levels.map Prod.snd).foldl max 0

/-- `levels[l]`, then sorted by `x.node_index or x.index`: the nodes
assigned level `l`, in leveling order, stably sorted by the key. -/
def levelBlock (g : TGraph) (st : TSState) (l : Nat) : List Nat :=
  isortBy (fun a b => decide (g.key a ≤ g.key b))
    ((st.levels.filter (fun pl => pl.2 == l)).map Prod.fst)

/-- The emission order: all of level 0, then level 1, and so on. -/
def emission (g : TGraph) (st : TSState) : List Nat :=
  (List.range (maxLevelTS st + 1)).flatMap (levelBlock g st)

/-- Edge endpoints are nodes. -/
def validG (g : TGraph) : Prop := ∀ e ∈ g.tedges, e.1 < g.nodesN ∧ e.2 < g.nodesN

/-- Acyclicity, as the existence of a rank function increasing along every
(parent, child) edge. -/
def AcyclicG (g : TGraph) : Prop := ∃ ht : Nat → Nat, ∀ e ∈ g.tedges, ht e.1 < ht e.2

/-- The loop invariant of `topological_sort`. -/
structure TSInv (g : TGraph) (st : TSState) : Prop where
  stack_lt : ∀ i ∈ st.stack, i < g.nodesN
  keys_lt : ∀ pl ∈ st.levels, pl.1 < g.nodesN
  keys_nodup : (st.levels.map Prod.fst).Nodup
  eqn : ∀ pl ∈ st.levels,
    (∀ q ∈ tparents g pl.1, leveledL st.levels q = true) ∧
    pl.2 = (if tparents g pl.1 = [] then 0 else 1 + pmaxL st.levels (tparents g pl.1))
  leaf : ∀ i < g.nodesN, childless g i = true →
    leveledL st.levels i = true ∨ i ∈ st.stack

theorem lookup_single_ne {i y l : Nat} (h : i ≠ y) :
    List.lookup i [(y, l)] = none := by
  simp [List.lookup, beq_eq_false_iff_ne.mpr h]

theorem lookup_append_single_ne (L : List (Nat × Nat)) {i y : Nat} (l : Nat) (h : i ≠ y) :
    List.lookup i (L ++ [(y, l)]) = List.lookup i L := by
  rw [List.lookup_append, lookup_single_ne h, Option.or_none]

theorem leveledL_append (L M : List (Nat × Nat)) (i : Nat)
    (h : leveledL L i = true) : leveledL (L ++ M) i = true := by
  rw [leveledL, levelOfL] at h
  rw [leveledL, levelOfL, List.lookup_append]
  obtain ⟨v, hv⟩ := Option.isSome_iff_exists.mp h
  rw [hv]
  rfl

theorem mem_of_lookup_eq_some {L : List (Nat × Nat)} {i l : Nat}
    (h : List.lookup i L = some l) : (i, l) ∈ L := by
  induction L with
  | nil => cases h
  | cons pl L ih =>
    rcases pl with ⟨k, v⟩
    by_cases hk : i = k
    · subst hk
      rw [List.lookup_cons_self] at h
      cases h
      exact List.mem_cons_self _ _
    · rw [lookup_cons_ne _ _ _ _ hk] at h
      exact List.mem_cons_of_mem _ (ih h)

theorem lookup_eq_some_of_mem_nodup {L : List (Nat × Nat)} {i l : Nat}
    (hnd : (L.map Prod.fst).Nodup) (h : (i, l) ∈ L) : List.lookup i L = some l := by
  induction L with
  | nil => cases h
  | cons pl L ih =>
    rcases pl with ⟨k, v⟩
    rcases List.mem_cons.mp h with heq | hmem
    · cases heq
      exact List.lookup_cons_self
    · have hk : i ≠ k := by
        intro hik
        subst hik
        have : i ∈ L.map Prod.fst := List.mem_map.mpr ⟨(i, l), hmem, rfl⟩
        exact (List.nodup_cons.mp hnd).1 this
      rw [lookup_cons_ne _ _ _ _ hk]
      exact ih (List.nodup_cons.mp hnd).2 hmem

theorem lookup_isSome_of_mem {L : List (Nat × Nat)} {i v : Nat}
    (h : (i, v) ∈ L) : (List.lookup i L).isSome = true := by
  induction L with
  | nil => cases h
  | cons pl L ih =>
    rcases pl with ⟨k2, v2⟩
    by_cases hk : i = k2
    · subst hk
      rw [List.lookup_cons_self]
      rfl
    · rw [lookup_cons_ne _ _ _ _ hk]
      rcases List.mem_cons.mp h with heq | hmem
      · cases heq
        exact absurd rfl hk
      · exact ih hmem

theorem not_mem_keys_of_unleveled {L : List (Nat × Nat)} {i : Nat}
    (h : leveledL L i = false) : i ∉ L.map Prod.fst := by
  intro hmem
  obtain ⟨⟨k, v⟩, hkv, hfst⟩ := List.mem_map.mp hmem
  cases hfst
  rw [leveledL, levelOfL, lookup_isSome_of_mem hkv] at h
  cases h

theorem levelOfL_append_of_leveled {L : List (Nat × Nat)} {i y : Nat} (l : Nat)
    (hlev : leveledL L i = true) (hy : leveledL L y = false) :
    levelOfL (L ++ [(y, l)]) i = levelOfL L i := by
  have hne : i ≠ y := by
    intro h
    subst h
    rw [hlev] at hy
    cases hy
  rw [levelOfL, levelOfL, lookup_append_single_ne _ _ hne]

theorem pmaxL_append_of_all_leveled {L : List (Nat × Nat)} {ps : List Nat} {y : Nat} (l : Nat)
    (hps : ∀ q ∈ ps, leveledL L q = true) (hy : leveledL L y = false) :
    pmaxL (L ++ [(y, l)]) ps = pmaxL L ps := by
  rw [pmaxL, pmaxL]
  congr 1
  apply List.map_congr_left
  intro q hq
  rw [levelOfL_append_of_leveled l (hps q hq) hy]

theorem init_le_foldl_max (l : List Nat) (b : Nat) : b ≤ l.foldl max b := by
  induction l generalizing b with
  | nil => exact le_refl b
  | cons c l ih => exact le_trans (le_max_left b c) (ih (max b c))

theorem le_foldl_max (l : List Nat) (a b : Nat) (h : a ∈ l) : a ≤ l.foldl max b := by
  induction l generalizing b with
  | nil => cases h
  | cons c l ih =>
    rcases List.mem_cons.mp h with heq | hmem
    · subst heq
      exact le_trans (le_max_right b a) (init_le_foldl_max l (max b a))
    · exact ih (max b c) hmem

theorem mem_tparents {g : TGraph} {q i : Nat} :
    q ∈ tparents g i ↔ (q, i) ∈ g.tedges := by
  rw [tparents]
  constructor
  · intro h
    obtain ⟨e, he, hfst⟩ := List.mem_map.mp h
    obtain ⟨hmem, hsnd⟩ := List.mem_filter.mp he
    rcases e with ⟨a, b⟩
    cases hfst
    cases beq_iff_eq.mp hsnd
    exact hmem
  · intro h
    exact List.mem_map.mpr ⟨(q, i), List.mem_filter.mpr ⟨h, beq_iff_eq.mpr rfl⟩, rfl⟩

theorem tparents_length_le (g : TGraph) (i : Nat) :
    (tparents g i).length ≤ g.tedges.length := by
  rw [tparents, List.length_map]
  exact List.length_filter_le _ _

theorem exists_child_of_not_childless {g : TGraph} {i : Nat}
    (h : childless g i = false) : ∃ c, (i, c) ∈ g.tedges := by
  by_contra hno
  push_neg at hno
  have : childless g i = true := by
    rw [childless, List.all_eq_true]
    intro e he
    rcases e with ⟨a, b⟩
    by_cases ha : a = i
    · subst ha
      exact absurd he (hno b)
    · simpa using ha
  rw [this] at h
  cases h

theorem foldl_pairs_length (u : List Nat) (x : Nat) (acc : List Nat) :
    (u.foldl (fun acc p => p :: x :: acc) acc).length = acc.length + 2 * u.length := by
  induction u generalizing acc with
  | nil => simp
  | cons a u ih =>
    rw [List.foldl_cons, ih]
    simp only [List.length_cons]
    omega

theorem foldl_pairs_subset (u : List Nat) (x : Nat) (acc : List Nat) (y : Nat)
    (h : y ∈ u.foldl (fun acc p => p :: x :: acc) acc) : y ∈ u ∨ y = x ∨ y ∈ acc := by
  induction u generalizing acc with
  | nil => exact Or.inr (Or.inr h)
  | cons a u ih =>
    rw [List.foldl_cons] at h
    rcases ih _ h with hu | hx | hacc
    · exact Or.inl (List.mem_cons_of_mem _ hu)
    · exact Or.inr (Or.inl hx)
    · rcases List.mem_cons.mp hacc with rfl | hacc2
      · exact Or.inl (List.mem_cons_self _ _)
      · rcases List.mem_cons.mp hacc2 with rfl | hacc3
        · exact Or.inr (Or.inl rfl)
        · exact Or.inr (Or.inr hacc3)

theorem foldl_pairs_acc_mem (u : List Nat) (x : Nat) (acc : List Nat) (y : Nat)
    (h : y ∈ acc) : y ∈ u.foldl (fun acc p => p :: x :: acc) acc := by
  induction u generalizing acc with
  | nil => exact h
  | cons a u ih =>
    rw [List.foldl_cons]
    exact ih _ (List.mem_cons_of_mem _ (List.mem_cons_of_mem _ h))

theorem foldl_pairs_self_mem (u : List Nat) (x : Nat) (acc : List Nat) (h : u ≠ []) :
    x ∈ u.foldl (fun acc p => p :: x :: acc) acc := by
  rcases u with _ | ⟨a, u⟩
  · exact absurd rfl h
  · rw [List.foldl_cons]
    exact foldl_pairs_acc_mem _ _ _ _ (List.mem_cons_of_mem _ (List.mem_cons_self _ _))

theorem foldl_pairs_head (u : List Nat) (x : Nat) (acc : List Nat) (h : u ≠ []) :
    ∃ rest, u.foldl (fun acc p => p :: x :: acc) acc = u.getLast h :: rest := by
  induction u generalizing acc with
  | nil => exact absurd rfl h
  | cons a u ih =>
    by_cases hu : u = []
    · subst hu
      exact ⟨x :: acc, rfl⟩
    · rw [List.foldl_cons, List.getLast_cons hu]
      exact ih _ hu

theorem tsStep_nil (g : TGraph) (st : TSState) (h : st.stack = []) : tsStep g st = st := by
  simp only [tsStep, h]

theorem tsStep_skip (g : TGraph) (st : TSState) (x : Nat) (rest : List Nat)
    (h : st.stack = x :: rest) (hx : leveledL st.levels x = true) :
    tsStep g st = ⟨st.levels, rest⟩ := by
  simp only [tsStep, h]
  rw [if_pos hx]

theorem tsStep_level0 (g : TGraph) (st : TSState) (x : Nat) (rest : List Nat)
    (h : st.stack = x :: rest) (hx : leveledL st.levels x = false)
    (hps : tparents g x = []) :
    tsStep g st = ⟨st.levels ++ [(x, 0)], rest⟩ := by
  simp only [tsStep, h]
  rw [if_neg (by rw [hx]; exact Bool.false_ne_true),
    if_pos (by rw [hps]; rfl)]

theorem tsStep_level (g : TGraph) (st : TSState) (x : Nat) (rest : List Nat)
    (h : st.stack = x :: rest) (hx : leveledL st.levels x = false)
    (hps : tparents g x ≠ [])
    (hun : (tparents g x).filter (fun p => !leveledL st.levels p) = []) :
    tsStep g st = ⟨st.levels ++ [(x, 1 + pmaxL st.levels (tparents g x))], rest⟩ := by
  simp only [tsStep, h]
  rw [if_neg (by rw [hx]; exact Bool.false_ne_true),
    if_neg (fun hh => hps (List.isEmpty_iff.mp hh)),
    if_pos (by rw [hun]; rfl)]

theorem tsStep_expand (g : TGraph) (st : TSState) (x : Nat) (rest : List Nat)
    (h : st.stack = x :: rest) (hx : leveledL st.levels x = false)
    (hun : (tparents g x).filter (fun p => !leveledL st.levels p) ≠ []) :
    tsStep g st = ⟨st.levels,
      ((tparents g x).filter (fun p => !leveledL st.levels p)).foldl
        (fun acc p => p :: x :: acc) rest⟩ := by
  have hps : tparents g x ≠ [] := by
    intro hnil
    apply hun
    rw [hnil]
    rfl
  simp only [tsStep, h]
  rw [if_neg (by rw [hx]; exact Bool.false_ne_true),
    if_neg (fun hh => hps (List.isEmpty_iff.mp hh)),
    if_neg (fun hh => hun (List.isEmpty_iff.mp hh))]

theorem leveledL_append_self (L : List (Nat × Nat)) (x lv : Nat)
    (hx : leveledL L x = false) : leveledL (L ++ [(x, lv)]) x = true := by
  have h1 : List.lookup x L = none := by
    rcases hl : List.lookup x L with _ | v
    · rfl
    · rw [leveledL, levelOfL, hl] at hx
      cases hx
  rw [leveledL, levelOfL, List.lookup_append, h1, Option.none_or, List.lookup_cons_self]
  rfl

/-- Appending a fresh, correctly-valued level entry preserves the loop
invariant. -/
theorem tsInv_append_level (g : TGraph) (st : TSState) (x : Nat) (rest : List Nat) (lv : Nat)
    (hinv : TSInv g st) (hst : st.stack = x :: rest)
    (hx : leveledL st.levels x = false)
    (hpar : ∀ q ∈ tparents g x, leveledL st.levels q = true)
    (hval : lv = (if tparents g x = [] then 0 else 1 + pmaxL st.levels (tparents g x))) :
    TSInv g ⟨st.levels ++ [(x, lv)], rest⟩ := by
  have hxN : x < g.nodesN := hinv.stack_lt x (by rw [hst]; exact List.mem_cons_self _ _)
  refine ⟨?_, ?_, ?_, ?_, ?_⟩
  · intro i hi
    exact hinv.stack_lt i (by rw [hst]; exact List.mem_cons_of_mem _ hi)
  · intro pl hpl
    rcases List.mem_append.mp hpl with hold | hnew
    · exact hinv.keys_lt pl hold
    · rcases List.mem_singleton.mp hnew with rfl
      exact hxN
  · rw [List.map_append]
    rw [List.nodup_append]
    refine ⟨hinv.keys_nodup, List.nodup_singleton x, ?_⟩
    intro a ha hb
    rcases List.mem_singleton.mp hb with rfl
    exact not_mem_keys_of_unleveled hx ha
  · intro pl hpl
    rcases List.mem_append.mp hpl with hold | hnew
    · obtain ⟨h1, h2⟩ := hinv.eqn pl hold
      refine ⟨fun q hq => leveledL_append _ _ _ (h1 q hq), ?_⟩
      rw [pmaxL_append_of_all_leveled lv h1 hx]
      exact h2
    · rcases List.mem_singleton.mp hnew with rfl
      refine ⟨fun q hq => leveledL_append _ _ _ (hpar q hq), ?_⟩
      rw [pmaxL_append_of_all_leveled lv hpar hx]
      exact hval
  · intro i hiN hic
    rcases hinv.leaf i hiN hic with hlev | hstk
    · exact Or.inl (leveledL_append _ _ _ hlev)
    · rw [hst] at hstk
      rcases List.mem_cons.mp hstk with rfl | hrest
      · exact Or.inl (leveledL_append_self _ _ _ hx)
      · exact Or.inr hrest

/-- `tsStep` preserves the loop invariant. -/
theorem tsStep_inv (g : TGraph) (st : TSState) (hval : validG g) (hinv : TSInv g st) :
    TSInv g (tsStep g st) := by
  rcases hst : st.stack with _ | ⟨x, rest⟩
  · rw [tsStep_nil g st hst]
    exact hinv
  · cases hx : leveledL st.levels x with
    | true =>
      rw [tsStep_skip g st x rest hst hx]
      refine ⟨?_, hinv.keys_lt, hinv.keys_nodup, hinv.eqn, ?_⟩
      · intro i hi
        exact hinv.stack_lt i (by rw [hst]; exact List.mem_cons_of_mem _ hi)
      · intro i hiN hic
        rcases hinv.leaf i hiN hic with hlev | hstk
        · exact Or.inl hlev
        · rw [hst] at hstk
          rcases List.mem_cons.mp hstk with rfl | hrest
          · exact Or.inl hx
          · exact Or.inr hrest
    | false =>
      rcases hps : tparents g x with _ | ⟨p0, ps0⟩
      · rw [tsStep_level0 g st x rest hst hx hps]
        exact tsInv_append_level g st x rest 0 hinv hst hx
          (by rw [hps]; intro q hq; cases hq) (by rw [hps]; rfl)
      · rcases hun : (tparents g x).filter (fun p => !leveledL st.levels p) with _ | ⟨u0, us0⟩
        · rw [tsStep_level g st x rest hst hx (by rw [hps]; simp) hun]
          have hpar : ∀ q ∈ tparents g x, leveledL st.levels q = true := by
            intro q hq
            have := List.filter_eq_nil_iff.mp hun q hq
            simpa using this
          exact tsInv_append_level g st x rest _ hinv hst hx hpar (by rw [hps]; simp)
        · rw [tsStep_expand g st x rest hst hx (by rw [hun]; simp)]
          refine ⟨?_, hinv.keys_lt, hinv.keys_nodup, hinv.eqn, ?_⟩
          · intro i hi
            rcases foldl_pairs_subset _ _ _ _ hi with hu | hxx | hrest
            · have hqp : i ∈ tparents g x := List.mem_of_mem_filter hu
              exact (hval _ (mem_tparents.mp hqp)).1
            · subst hxx
              exact hinv.stack_lt i (by rw [hst]; exact List.mem_cons_self _ _)
            · exact hinv.stack_lt i (by rw [hst]; exact List.mem_cons_of_mem _ hrest)
          · intro i hiN hic
            rcases hinv.leaf i hiN hic with hlev | hstk
            · exact Or.inl hlev
            · rw [hst] at hstk
              rcases List.mem_cons.mp hstk with rfl | hrest
              · exact Or.inr (foldl_pairs_self_mem _ _ _ (by rw [hun]; simp))
              · exact Or.inr (foldl_pairs_acc_mem _ _ _ _ hrest)

/-- `tsRun` preserves the loop invariant. -/
theorem tsRun_inv (g : TGraph) (hval : validG g) (fuel : Nat) (st : TSState)
    (hinv : TSInv g st) : TSInv g (tsRun g fuel st) := by
  induction fuel generalizing st with
  | zero => exact hinv
  | succ f ih =>
    rw [tsRun]
    split
    · exact hinv
    · exact ih _ (tsStep_inv g st hval hinv)

/-- The initial state satisfies the invariant. -/
theorem initTS_inv (g : TGraph) : TSInv g (initTS g) := by
  refine ⟨?_, ?_, ?_, ?_, ?_⟩
  · intro i hi
    rw [initTS, List.mem_reverse] at hi
    exact (List.mem_range.mp (List.mem_of_mem_filter hi))
  · intro pl hpl
    cases hpl
  · exact List.nodup_nil
  · intro pl hpl
    cases hpl
  · intro i hiN hic
    refine Or.inr ?_
    rw [initTS, List.mem_reverse]
    exact List.mem_filter.mpr ⟨List.mem_range.mpr hiN, hic⟩

/-- Cardinality bound: a duplicate-free list of naturals below `n` has at
most `n` elements. -/
theorem nodup_length_le (l : List Nat) (n : Nat) (h : ∀ x ∈ l, x < n)
    (hnd : l.Nodup) : l.length ≤ n := by
  have h1 : l.toFinset ⊆ Finset.range n := by
    intro x hx
    exact Finset.mem_range.mpr (h x (List.mem_toFinset.mp hx))
  have h2 := Finset.card_le_card h1
  rw [List.toFinset_card_of_nodup hnd, Finset.card_range] at h2
  exact h2

/-- While an unleveled node is on the stack, fewer than `nodesN` levels have
been assigned. -/
theorem levels_length_lt (g : TGraph) (st : TSState) (hinv : TSInv g st) (x : Nat)
    (hxs : x ∈ st.stack) (hx : leveledL st.levels x = false) :
    st.levels.length < g.nodesN := by
  have hxn : x < g.nodesN := hinv.stack_lt x hxs
  have hkeys : ∀ y ∈ x :: st.levels.map Prod.fst, y < g.nodesN := by
    intro y hy
    rcases List.mem_cons.mp hy with rfl | hmem
    · exact hxn
    · obtain ⟨pl, hpl, hplf⟩ := List.mem_map.mp hmem
      cases hplf
      exact hinv.keys_lt pl hpl
  have hnd : (x :: st.levels.map Prod.fst).Nodup :=
    List.nodup_cons.mpr ⟨not_mem_keys_of_unleveled hx, hinv.keys_nodup⟩
  have := nodup_length_le _ _ hkeys hnd
  rw [List.length_cons, List.length_map] at this
  omega

/-- The measure bonus: the rank of the top of the stack when it is
unleveled, a ceiling value otherwise. -/
def tsBonus (ht : Nat → Nat) (HTB : Nat) (st : TSState) : Nat :=
  match st.stack with
  | [] => 0
  | x :: _ => if leveledL st.levels x then HTB + 1 else ht x + 1

/-- The inner termination measure of the `topological_sort` loop. -/
def tsMeasure2 (g : TGraph) (ht : Nat → Nat) (HTB : Nat) (st : TSState) : Nat :=
  st.stack.length + (2 * g.tedges.length + 2) * tsBonus ht HTB st

theorem tsBonus_le (g : TGraph) (ht : Nat → Nat) (HTB : Nat) (st : TSState)
    (hinv : TSInv g st) (hHTB : ∀ i < g.nodesN, ht i ≤ HTB) :
    tsBonus ht HTB st ≤ HTB + 1 := by
  rcases hst : st.stack with _ | ⟨x, rest⟩
  · simp only [tsBonus, hst]
    omega
  · simp only [tsBonus, hst]
    split
    · exact le_refl _
    · have hxn : x < g.nodesN := hinv.stack_lt x (by rw [hst]; exact List.mem_cons_self _ _)
      have := hHTB x hxn
      omega

/-- One loop iteration either assigns a new level (with room left below
`nodesN`) or keeps the level table and strictly decreases the inner
measure. -/
theorem tsStep_decrease (g : TGraph) (ht : Nat → Nat) (HTB : Nat)
    (hval : validG g) (hht : ∀ e ∈ g.tedges, ht e.1 < ht e.2)
    (hHTB : ∀ i < g.nodesN, ht i ≤ HTB)
    (st : TSState) (hinv : TSInv g st) (hne : st.stack ≠ []) :
    ((tsStep g st).levels.length = st.levels.length + 1 ∧
      st.levels.length < g.nodesN) ∨
    ((tsStep g st).levels = st.levels ∧
      tsMeasure2 g ht HTB (tsStep g st) < tsMeasure2 g ht HTB st) := by
  rcases hst : st.stack with _ | ⟨x, rest⟩
  · exact absurd hst hne
  · cases hx : leveledL st.levels x with
    | true =>
      refine Or.inr ?_
      rw [tsStep_skip g st x rest hst hx]
      refine ⟨rfl, ?_⟩
      have hb' : tsBonus ht HTB ⟨st.levels, rest⟩ ≤ HTB + 1 := by
        apply tsBonus_le g _ _ _ _ hHTB
        refine ⟨?_, hinv.keys_lt, hinv.keys_nodup, hinv.eqn, ?_⟩
        · intro i hi
          exact hinv.stack_lt i (by rw [hst]; exact List.mem_cons_of_mem _ hi)
        · intro i hiN hic
          rcases hinv.leaf i hiN hic with hlev | hstk
          · exact Or.inl hlev
          · rw [hst] at hstk
            rcases List.mem_cons.mp hstk with rfl | hrest
            · exact Or.inl hx
            · exact Or.inr hrest
      have hb : tsBonus ht HTB st = HTB + 1 := by
        simp only [tsBonus, hst]
        rw [if_pos hx]
      simp only [tsMeasure2, hb, hst, List.length_cons]
      have hmul := Nat.mul_le_mul_left (2 * g.tedges.length + 2) hb'
      omega
    | false =>
      rcases hps : tparents g x with _ | ⟨p0, ps0⟩
      · refine Or.inl ?_
        rw [tsStep_level0 g st x rest hst hx hps]
        refine ⟨by simp, ?_⟩
        exact levels_length_lt g st hinv x (by rw [hst]; exact List.mem_cons_self _ _) hx
      · rcases hun : (tparents g x).filter (fun p => !leveledL st.levels p) with _ | ⟨u0, us0⟩
        · refine Or.inl ?_
          rw [tsStep_level g st x rest hst hx (by rw [hps]; simp) hun]
          refine ⟨by simp, ?_⟩
          exact levels_length_lt g st hinv x (by rw [hst]; exact List.mem_cons_self _ _) hx
        · refine Or.inr ?_
          rw [tsStep_expand g st x rest hst hx (by rw [hun]; simp), hun]
          refine ⟨rfl, ?_⟩
          have hne2 : (u0 :: us0 : List Nat) ≠ [] := by simp
          have hkP : (u0 :: us0 : List Nat).length ≤ g.tedges.length := by
            rw [← hun]
            exact le_trans (List.length_filter_le _ _) (tparents_length_le g x)
          obtain ⟨rest', hrest'⟩ := foldl_pairs_head (u0 :: us0) x rest hne2
          have hlast_memf : (u0 :: us0).getLast hne2 ∈
              (tparents g x).filter (fun p => !leveledL st.levels p) := by
            rw [hun]
            exact List.getLast_mem hne2
          have hlast_unlev : leveledL st.levels ((u0 :: us0).getLast hne2) = false := by
            have h2 := (List.mem_filter.mp hlast_memf).2
            rcases hl : leveledL st.levels ((u0 :: us0).getLast hne2) with _ | _
            · rfl
            · rw [hl] at h2
              cases h2
          have hlast_ht : ht ((u0 :: us0).getLast hne2) < ht x :=
            hht _ (mem_tparents.mp (List.mem_of_mem_filter hlast_memf))
          have hlen : (((u0 :: us0).foldl (fun acc p => p :: x :: acc) rest)).length =
              rest.length + 2 * (u0 :: us0).length := foldl_pairs_length _ x rest
          have hbon : tsBonus ht HTB
              ⟨st.levels, (u0 :: us0).foldl (fun acc p => p :: x :: acc) rest⟩ =
              ht ((u0 :: us0).getLast hne2) + 1 := by
            simp only [tsBonus, hrest']
            rw [if_neg (by rw [hlast_unlev]; exact Bool.false_ne_true)]
          have hbx : tsBonus ht HTB st = ht x + 1 := by
            simp only [tsBonus, hst]
            rw [if_neg (by rw [hx]; exact Bool.false_ne_true)]
          simp only [tsMeasure2, hbon, hbx, hlen, hst, List.length_cons]
          have h2 : ht ((u0 :: us0).getLast hne2) + 2 ≤ ht x + 1 := by omega
          have hmul : (2 * g.tedges.length + 2) * (ht ((u0 :: us0).getLast hne2) + 1) +
              (2 * g.tedges.length + 2) ≤ (2 * g.tedges.length + 2) * (ht x + 1) := by
            calc (2 * g.tedges.length + 2) * (ht ((u0 :: us0).getLast hne2) + 1) +
                  (2 * g.tedges.length + 2)
                = (2 * g.tedges.length + 2) * (ht ((u0 :: us0).getLast hne2) + 2) := by ring
              _ ≤ (2 * g.tedges.length + 2) * (ht x + 1) := Nat.mul_le_mul_left _ h2
          have hlc : (u0 :: us0 : List Nat).length = us0.length + 1 := by simp
          omega

/-- The `while stack` loop terminates: enough fuel empties the stack.
Nested induction on a bound for the unfilled level slots and on the inner
measure. -/
theorem tsRun_reaches_empty (g : TGraph) (ht : Nat → Nat) (HTB : Nat)
    (hval : validG g) (hht : ∀ e ∈ g.tedges, ht e.1 < ht e.2)
    (hHTB : ∀ i < g.nodesN, ht i ≤ HTB)
    (st0 : TSState) (hinv0 : TSInv g st0) :
    ∃ n, (tsRun g n st0).stack = [] := by
  suffices main : ∀ d m (st : TSState), TSInv g st →
      g.nodesN - st.levels.length ≤ d → tsMeasure2 g ht HTB st ≤ m →
      ∃ n, (tsRun g n st).stack = [] by
    exact main g.nodesN (tsMeasure2 g ht HTB st0) st0 hinv0 (Nat.sub_le _ _) (le_refl _)
  intro d
  induction d with
  | zero =>
    intro m
    induction m with
    | zero =>
      intro st hinv hd hm
      rcases hstack : st.stack with _ | ⟨x, rest⟩
      · exact ⟨0, hstack⟩
      · exfalso
        rcases tsStep_decrease g ht HTB hval hht hHTB st hinv
            (by rw [hstack]; exact List.cons_ne_nil _ _) with ⟨hlen, hlt⟩ | ⟨hlev, hm2⟩
        · omega
        · omega
    | succ m ihm =>
      intro st hinv hd hm
      rcases hstack : st.stack with _ | ⟨x, rest⟩
      · exact ⟨0, hstack⟩
      · rcases tsStep_decrease g ht HTB hval hht hHTB st hinv
            (by rw [hstack]; exact List.cons_ne_nil _ _) with ⟨hlen, hlt⟩ | ⟨hlev, hm2⟩
        · exact absurd hlt (by omega)
        · have hlev' : (tsStep g st).levels.length = st.levels.length :=
            congrArg List.length hlev
          obtain ⟨n, hn⟩ := ihm (tsStep g st) (tsStep_inv g st hval hinv)
            (by omega) (by omega)
          refine ⟨n + 1, ?_⟩
          rw [tsRun, if_neg (by simp [hstack])]
          exact hn
  | succ d ihd =>
    intro m
    induction m with
    | zero =>
      intro st hinv hd hm
      rcases hstack : st.stack with _ | ⟨x, rest⟩
      · exact ⟨0, hstack⟩
      · rcases tsStep_decrease g ht HTB hval hht hHTB st hinv
            (by rw [hstack]; exact List.cons_ne_nil _ _) with ⟨hlen, hlt⟩ | ⟨hlev, hm2⟩
        · obtain ⟨n, hn⟩ := ihd (tsMeasure2 g ht HTB (tsStep g st)) (tsStep g st)
            (tsStep_inv g st hval hinv) (by omega) (le_refl _)
          refine ⟨n + 1, ?_⟩
          rw [tsRun, if_neg (by simp [hstack])]
          exact hn
        · exact absurd hm2 (by omega)
    | succ m ihm =>
      intro st hinv hd hm
      rcases hstack : st.stack with _ | ⟨x, rest⟩
      · exact ⟨0, hstack⟩
      · rcases tsStep_decrease g ht HTB hval hht hHTB st hinv
            (by rw [hstack]; exact List.cons_ne_nil _ _) with ⟨hlen, hlt⟩ | ⟨hlev, hm2⟩
        · obtain ⟨n, hn⟩ := ihd (tsMeasure2 g ht HTB (tsStep g st)) (tsStep g st)
            (tsStep_inv g st hval hinv) (by omega) (le_refl _)
          refine ⟨n + 1, ?_⟩
          rw [tsRun, if_neg (by simp [hstack])]
          exact hn
        · have hlev' : (tsStep g st).levels.length = st.levels.length :=
            congrArg List.length hlev
          obtain ⟨n, hn⟩ := ihm (tsStep g st) (tsStep_inv g st hval hinv)
            (by omega) (by omega)
          refine ⟨n + 1, ?_⟩
          rw [tsRun, if_neg (by simp [hstack])]
          exact hn

/-- When the stack has emptied, every node has been assigned a level
(downward induction on the rank distance to the top). -/
theorem all_leveled_of_empty (g : TGraph) (ht : Nat → Nat) (HTB : Nat)
    (hval : validG g) (hht : ∀ e ∈ g.tedges, ht e.1 < ht e.2)
    (hHTB : ∀ i < g.nodesN, ht i ≤ HTB)
    (st : TSState) (hinv : TSInv g st) (hemp : st.stack = []) :
    ∀ i, i < g.nodesN → leveledL st.levels i = true := by
  suffices main : ∀ k i, i < g.nodesN → HTB - ht i ≤ k →
      leveledL st.levels i = true by
    intro i hi
    exact main HTB i hi (Nat.sub_le _ _)
  intro k
  induction k with
  | zero =>
    intro i hi hk
    cases hcl : childless g i with
    | true =>
      rcases hinv.leaf i hi hcl with hlev | hstk
      · exact hlev
      · rw [hemp] at hstk
        cases hstk
    | false =>
      exfalso
      obtain ⟨c, hc⟩ := exists_child_of_not_childless hcl
      have h1 : ht i < ht c := hht (i, c) hc
      have hcN : c < g.nodesN := (hval (i, c) hc).2
      have h2 := hHTB c hcN
      omega
  | succ k ih =>
    intro i hi hk
    cases hcl : childless g i with
    | true =>
      rcases hinv.leaf i hi hcl with hlev | hstk
      · exact hlev
      · rw [hemp] at hstk
        cases hstk
    | false =>
      obtain ⟨c, hc⟩ := exists_child_of_not_childless hcl
      have h1 : ht i < ht c := hht (i, c) hc
      have hcN : c < g.nodesN := (hval (i, c) hc).2
      have h2 := hHTB c hcN
      have hlevc := ih c hcN (by omega)
      rw [leveledL, levelOfL] at hlevc
      obtain ⟨lv, hlv⟩ := Option.isSome_iff_exists.mp hlevc
      have hmem := mem_of_lookup_eq_some hlv
      exact (hinv.eqn (c, lv) hmem).1 i (mem_tparents.mpr hc)

theorem range_split (a n : Nat) (h : a < n) :
    ∃ post, List.range n = List.range a ++ a :: post ∧ ∀ x ∈ post, a < x := by
  induction n with
  | zero => omega
  | succ n ih =>
    by_cases ha : a < n
    · obtain ⟨post, hpost, hgt⟩ := ih ha
      refine ⟨post ++ [n], ?_, ?_⟩
      · rw [List.range_succ, hpost]
        simp
      · intro x hx
        rcases List.mem_append.mp hx with h1 | h2
        · exact hgt x h1
        · have : x = n := by simpa using h2
          omega
    · have haeq : a = n := by omega
      subst haeq
      exact ⟨[], by rw [List.range_succ], by intro x hx; cases hx⟩

theorem flatMap_nil_fun (R : List Nat) :
    R.flatMap (fun _ => ([] : List (Nat × Nat))) = [] := by
  induction R with
  | nil => rfl
  | cons a R ih => simpa using ih

theorem flatMap_congr_mem (R : List Nat) (f g : Nat → List (Nat × Nat))
    (h : ∀ a ∈ R, f a = g a) : R.flatMap f = R.flatMap g := by
  induction R with
  | nil => rfl
  | cons a R ih =>
    rw [List.flatMap_cons, List.flatMap_cons, h a (List.mem_cons_self _ _),
      ih (fun b hb => h b (List.mem_cons_of_mem _ hb))]

/-- Splitting a pair list by its second components over a duplicate-free
cover reassembles the list up to permutation. -/
theorem partition_perm (R : List Nat) (hnd : R.Nodup) :
    ∀ L : List (Nat × Nat), (∀ pl ∈ L, pl.2 ∈ R) →
    List.Perm (R.flatMap (fun l => L.filter (fun q => q.2 == l))) L := by
  intro L
  induction L with
  | nil =>
    intro _
    rw [flatMap_congr_mem R _ (fun _ => []) (fun a _ => List.filter_nil _),
      flatMap_nil_fun]
  | cons pl L ih =>
    intro hmem
    have hplR : pl.2 ∈ R := hmem pl (List.mem_cons_self _ _)
    obtain ⟨R1, R2, hR⟩ := List.append_of_mem hplR
    have hndR : (R1 ++ pl.2 :: R2).Nodup := hR ▸ hnd
    have hd := List.nodup_append.mp hndR
    have hnotR1 : pl.2 ∉ R1 := fun hmem1 => hd.2.2 hmem1 (List.mem_cons_self _ _)
    have e1 : R1.flatMap (fun l => (pl :: L).filter (fun q => q.2 == l)) =
        R1.flatMap (fun l => L.filter (fun q => q.2 == l)) := by
      apply flatMap_congr_mem
      intro a ha
      have hne : (pl.2 == a) = false :=
        beq_eq_false_iff_ne.mpr (fun hq => hnotR1 (hq ▸ ha))
      simp [List.filter_cons, hne]
    have hnotR2 : pl.2 ∉ R2 := (List.nodup_cons.mp hd.2.1).1
    have e2 : R2.flatMap (fun l => (pl :: L).filter (fun q => q.2 == l)) =
        R2.flatMap (fun l => L.filter (fun q => q.2 == l)) := by
      apply flatMap_congr_mem
      intro a ha
      have hne : (pl.2 == a) = false :=
        beq_eq_false_iff_ne.mpr (fun hq => hnotR2 (hq ▸ ha))
      simp [List.filter_cons, hne]
    have e3 : (pl :: L).filter (fun q => q.2 == pl.2) =
        pl :: L.filter (fun q => q.2 == pl.2) := by
      simp [List.filter_cons]
    have ihL := ih (fun q hq => hmem q (List.mem_cons_of_mem _ hq))
    rw [hR] at ihL
    simp only [List.flatMap_append, List.flatMap_cons] at ihL
    rw [hR]
    simp only [List.flatMap_append, List.flatMap_cons]
    rw [e1, e2, e3]
    simp only [List.cons_append]
    refine List.Perm.trans List.perm_middle ?_
    exact List.Perm.cons pl ihL

theorem keys_perm_range (g : TGraph) (st : TSState) (hinv : TSInv g st)
    (hall : ∀ i, i < g.nodesN → leveledL st.levels i = true) :
    List.Perm (st.levels.map Prod.fst) (List.range g.nodesN) := by
  refine (List.perm_ext_iff_of_nodup hinv.keys_nodup (List.nodup_range _)).mpr ?_
  intro i
  constructor
  · intro hi
    obtain ⟨pl, hpl, hfst⟩ := List.mem_map.mp hi
    exact List.mem_range.mpr (hfst ▸ hinv.keys_lt pl hpl)
  · intro hi
    have hlev := hall i (List.mem_range.mp hi)
    rw [leveledL, levelOfL] at hlev
    obtain ⟨lv, hlv⟩ := Option.isSome_iff_exists.mp hlev
    exact List.mem_map.mpr ⟨(i, lv), mem_of_lookup_eq_some hlv, rfl⟩

theorem snd_mem_range_maxLevel (st : TSState) (pl : Nat × Nat)
    (hpl : pl ∈ st.levels) : pl.2 ∈ List.range (maxLevelTS st + 1) := by
  rw [List.mem_range, Nat.lt_succ_iff, maxLevelTS]
  exact le_foldl_max _ _ _ (List.mem_map.mpr ⟨pl, hpl, rfl⟩)

/-- The emission order lists every node exactly once. -/
theorem emission_perm_range (g : TGraph) (st : TSState) (hinv : TSInv g st)
    (hall : ∀ i, i < g.nodesN → leveledL st.levels i = true) :
    List.Perm (emission g st) (List.range g.nodesN) := by
  have h1 : List.Perm (emission g st)
      ((List.range (maxLevelTS st + 1)).flatMap
        (fun l => (st.levels.filter (fun pl => pl.2 == l)).map Prod.fst)) := by
    rw [emission]
    apply List.Perm.flatMap_left
    intro l _
    rw [levelBlock]
    exact isortBy_perm _ _
  have h2 : ((List.range (maxLevelTS st + 1)).flatMap
      (fun l => (st.levels.filter (fun pl => pl.2 == l)).map Prod.fst)) =
      ((List.range (maxLevelTS st + 1)).flatMap
        (fun l => st.levels.filter (fun pl => pl.2 == l))).map Prod.fst := by
    rw [List.map_flatMap]
  have h3 := partition_perm (List.range (maxLevelTS st + 1)) (List.nodup_range _)
      st.levels (fun pl hpl => snd_mem_range_maxLevel st pl hpl)
  refine h1.trans ?_
  rw [h2]
  exact (h3.map Prod.fst).trans (keys_perm_range g st hinv hall)

/-- At the final state, every node carries exactly the level value computed
by the loop: 0 without parents, otherwise one more than the parents'
maximum. -/
theorem final_level_eqn (g : TGraph) (st : TSState) (hinv : TSInv g st)
    (hall : ∀ i, i < g.nodesN → leveledL st.levels i = true)
    (i : Nat) (hi : i < g.nodesN) :
    levelOfL st.levels i =
      some (if tparents g i = [] then 0
            else 1 + pmaxL st.levels (tparents g i)) := by
  have hlev := hall i hi
  rw [leveledL] at hlev
  obtain ⟨lv, hlv⟩ := Option.isSome_iff_exists.mp hlev
  have hlv2 : List.lookup i st.levels = some lv := hlv
  have hmem := mem_of_lookup_eq_some hlv2
  have heq : lv = (if tparents g i = [] then 0
      else 1 + pmaxL st.levels (tparents g i)) := (hinv.eqn (i, lv) hmem).2
  rw [hlv, heq]

/-- Every edge's parent is emitted strictly before its child: the parent's
level is strictly smaller, and emission walks the levels in order. -/
theorem emission_orders_edge (g : TGraph) (st : TSState) (hinv : TSInv g st)
    (hval : validG g)
    (hall : ∀ i, i < g.nodesN → leveledL st.levels i = true)
    (e : Nat × Nat) (he : e ∈ g.tedges) :
    ∃ l1 l2 l3, emission g st = l1 ++ e.1 :: l2 ++ e.2 :: l3 := by
  have hpc : (e.1, e.2) ∈ g.tedges := by rw [Prod.mk.eta]; exact he
  have hpN : e.1 < g.nodesN := (hval e he).1
  have hcN : e.2 < g.nodesN := (hval e he).2
  have hlevp := hall e.1 hpN
  rw [leveledL] at hlevp
  obtain ⟨lp, hlp⟩ := Option.isSome_iff_exists.mp hlevp
  have hlp2 : List.lookup e.1 st.levels = some lp := hlp
  have hmemp := mem_of_lookup_eq_some hlp2
  have hlevc := hall e.2 hcN
  rw [leveledL] at hlevc
  obtain ⟨lc, hlc⟩ := Option.isSome_iff_exists.mp hlevc
  have hlc2 : List.lookup e.2 st.levels = some lc := hlc
  have hmemc := mem_of_lookup_eq_some hlc2
  have hpP : e.1 ∈ tparents g e.2 := mem_tparents.mpr hpc
  have hne : tparents g e.2 ≠ [] := List.ne_nil_of_mem hpP
  have heqc : lc = (if tparents g e.2 = [] then 0
      else 1 + pmaxL st.levels (tparents g e.2)) := (hinv.eqn (e.2, lc) hmemc).2
  rw [if_neg hne] at heqc
  have hple : lp ≤ pmaxL st.levels (tparents g e.2) := by
    have hm : lp ∈ (tparents g e.2).map (fun p => (levelOfL st.levels p).getD 0) := by
      refine List.mem_map.mpr ⟨e.1, hpP, ?_⟩
      rw [hlp]
      rfl
    rw [pmaxL]
    exact le_foldl_max _ _ _ hm
  have hlplc : lp < lc := by omega
  have hpblk : e.1 ∈ levelBlock g st lp := by
    rw [levelBlock]
    refine (List.Perm.mem_iff (isortBy_perm _ _)).mpr ?_
    refine List.mem_map.mpr ⟨(e.1, lp), ?_, rfl⟩
    exact List.mem_filter.mpr ⟨hmemp, by simp⟩
  have hcblk : e.2 ∈ levelBlock g st lc := by
    rw [levelBlock]
    refine (List.Perm.mem_iff (isortBy_perm _ _)).mpr ?_
    refine List.mem_map.mpr ⟨(e.2, lc), ?_, rfl⟩
    exact List.mem_filter.mpr ⟨hmemc, by simp⟩
  have hlcM : lc < maxLevelTS st + 1 :=
    List.mem_range.mp (snd_mem_range_maxLevel st (e.2, lc) hmemc)
  obtain ⟨postc, hrangec, _⟩ := range_split lc (maxLevelTS st + 1) hlcM
  obtain ⟨postp, hrangep, _⟩ := range_split lp lc hlplc
  obtain ⟨u1, u2, hu⟩ := List.append_of_mem hpblk
  obtain ⟨v1, v2, hv⟩ := List.append_of_mem hcblk
  refine ⟨(List.range lp).flatMap (levelBlock g st) ++ u1,
    u2 ++ (postp.flatMap (levelBlock g st) ++ v1),
    v2 ++ postc.flatMap (levelBlock g st), ?_⟩
  rw [emission, hrangec, hrangep]
  simp only [List.flatMap_append, List.flatMap_cons, hu, hv, List.append_assoc,
    List.cons_append]

/-- C7: for any acyclic transient node graph, `topological_sort`
terminates (the work stack empties with enough loop iterations), assigns
every node a level equal to 1 + the maximum level of its parents (0 for
nodes with no incoming edges), and produces an emission order that lists
every node exactly once with every parent strictly before every one of its
children. -/
theorem c7_topological_sort_terminates_levels_order (g : TGraph)
    (hval : validG g) (hacy : AcyclicG g) :
    ∃ n,
      (tsRun g n (initTS g)).stack = [] ∧
      (∀ i, i < g.nodesN →
        levelOfL (tsRun g n (initTS g)).levels i =
          some (if tparents g i = [] then 0
                else 1 + pmaxL (tsRun g n (initTS g)).levels (tparents g i))) ∧
      List.Perm (emission g (tsRun g n (initTS g))) (List.range g.nodesN) ∧
      (∀ e ∈ g.tedges, ∃ l1 l2 l3,
        emission g (tsRun g n (initTS g)) = l1 ++ e.1 :: l2 ++ e.2 :: l3) := by
  obtain ⟨ht, hht⟩ := hacy
  obtain ⟨n, hn⟩ := tsRun_reaches_empty g ht
      (((List.range g.nodesN).map ht).foldl max 0) hval hht
      (fun i hi =>
        le_foldl_max _ _ _ (List.mem_map.mpr ⟨i, List.mem_range.mpr hi, rfl⟩))
      (initTS g) (initTS_inv g)
  have hinv := tsRun_inv g hval n (initTS g) (initTS_inv g)
  have hall := all_leveled_of_empty g ht
      (((List.range g.nodesN).map ht).foldl max 0) hval hht
      (fun i hi =>
        le_foldl_max _ _ _ (List.mem_map.mpr ⟨i, List.mem_range.mpr hi, rfl⟩))
      (tsRun g n (initTS g)) hinv hn
  exact ⟨n, hn, fun i hi => final_level_eqn g _ hinv hall i hi,
    emission_perm_range g _ hinv hall,
    fun e he => emission_orders_edge g _ hinv hval hall e he⟩

theorem c7_witness :
    validG ⟨2, [(0, 1)], fun i => i⟩ ∧ AcyclicG ⟨2, [(0, 1)], fun i => i⟩ ∧
    (∃ n,
      (tsRun ⟨2, [(0, 1)], fun i => i⟩ n (initTS ⟨2, [(0, 1)], fun i => i⟩)).stack = [] ∧
      (∀ i, i < (⟨2, [(0, 1)], fun i => i⟩ : TGraph).nodesN →
        levelOfL (tsRun ⟨2, [(0, 1)], fun i => i⟩ n (initTS ⟨2, [(0, 1)], fun i => i⟩)).levels i =
          some (if tparents ⟨2, [(0, 1)], fun i => i⟩ i = [] then 0
                else 1 + pmaxL (tsRun ⟨2, [(0, 1)], fun i => i⟩ n
                  (initTS ⟨2, [(0, 1)], fun i => i⟩)).levels
                  (tparents ⟨2, [(0, 1)], fun i => i⟩ i))) ∧
      List.Perm (emission ⟨2, [(0, 1)], fun i => i⟩
          (tsRun ⟨2, [(0, 1)], fun i => i⟩ n (initTS ⟨2, [(0, 1)], fun i => i⟩)))
        (List.range (⟨2, [(0, 1)], fun i => i⟩ : TGraph).nodesN) ∧
      (∀ e ∈ (⟨2, [(0, 1)], fun i => i⟩ : TGraph).tedges, ∃ l1 l2 l3,
        emission ⟨2, [(0, 1)], fun i => i⟩
            (tsRun ⟨2, [(0, 1)], fun i => i⟩ n (initTS ⟨2, [(0, 1)], fun i => i⟩)) =
          l1 ++ e.1 :: l2 ++ e.2 :: l3)) :=
  ⟨by unfold validG; decide, ⟨fun i => i, by decide⟩,
    c7_topological_sort_terminates_levels_order ⟨2, [(0, 1)], fun i => i⟩
      (by unfold validG; decide) ⟨fun i => i, by decide⟩⟩

/-! ## The Graph Finalizer (`Configuration.passage`, C8) -/

/-- Modelled from the spec: the external tag vocabulary (spec 6) is a fixed
set of distinct string constants that the finalizer compares by value; the
concrete spellings are irrelevant, only their distinctness is used. -/
def tagTerminal : String := "Terminal"

/-- Modelled from the spec: the punctuation-edge tag of the vocabulary. -/
def tagPunct : String := "Punctuation"

/-- Modelled from the spec: the link-relation tag of the vocabulary. -/
def tagLinkRelation : String := "LinkRelation"

/-- Modelled from the spec: the link-argument tag of the vocabulary. -/
def tagLinkArgument : String := "LinkArgument"

/-- Python truthiness of a node's `text` field: both `None` and the empty
string are falsy. -/
def textTruthy : Option String → Bool
  | none => false
  | some s => !s.isEmpty

/-- `Node.is_linkage`: the outgoing list is non-empty and every outgoing
tag is the link-relation or link-argument tag. -/
def isLinkage (n : TNode) : Bool :=
  !n.outgoing.isEmpty &&
  n.outgoing.all (fun e => e.tag == some tagLinkRelation || e.tag == some tagLinkArgument)

/-- The transient graph `topological_sort` works on, read off the node
list: one vertex per node index, the (parent, child) pairs of each node's
`incoming` list (for edge-consistent configurations — every reachable one —
this carries the same adjacency as the `outgoing` lists), and the
within-level sort key `x.node_index or x.index` with Python's falsy-zero
`or`. -/
def topoGraph (ns : List TNode) : TGraph :=
  ⟨ns.length,
   (List.range ns.length).flatMap
     (fun i => (ns.getD i default).incoming.map (fun e => (e.parent, i))),
   fun i => match (ns.getD i default).nodeIdx with
     | some k => if k = 0 then i else k
     | none => i⟩

/-- `self.nodes.index(x)` after the topological reorder: the position in
the emission order of the first node structurally equal (Python `==`) to
node `j`.  (Python raises ValueError when no element matches; that cannot
happen for the children looked up here, which are all emitted.) -/
def structIndex (ns : List TNode) (ord : List Nat) (j : Nat) : Nat :=
  ord.findIdx (fun k => nodeEqF ns (eqFuel ns) k j)

/-- The adjacency sort key
`lambda x: x.child.node_index or self.nodes.index(x.child)` (with Python's
falsy-zero `or`). -/
def outKey (ns : List TNode) (ord : List Nat) (e : TEdge) : Nat :=
  match (ns.getD e.child default).nodeIdx with
  | some k => if k = 0 then structIndex ns ord e.child else k
  | none => structIndex ns ord e.child

/-- `node.outgoing.sort(key=...)`: Python's stable ascending sort of the
outgoing list (the matching `incoming` sort is performed by the source too
but never read again inside `passage`, so the model sorts on demand). -/
def sortedOut (ns : List TNode) (ord : List Nat) (i : Nat) : List TEdge :=
  isortBy (fun a b => decide (outKey ns ord a ≤ outKey ns ord b))
    (ns.getD i default).outgoing

/-- The persisted-side state of the finalizer: for every transient node the
persisted node reference it has been materialized to (`Node.node`, `none`
for not yet created), and a fresh-reference counter for the nodes created
by the external layer-1 constructors. -/
structure FinState where
  refs : List (Option Nat)
  fresh : Nat
deriving DecidableEq, Repr

/-- The ways `Configuration.passage` fails: its asserts in source order,
attribute access on an absent (`None`) persisted reference, and running out
of loop fuel (the `while stack` loop of `topological_sort` not having
terminated). -/
inductive FErr where
  | assertLeaf
  | assertNonRoot
  | assertCreateTwice
  | assertPunctTag
  | assertPunctTermTag
  | assertMultiLinkRel
  | assertNoLinkRel
  | assertFewLinkArgs
  | noneTypeError
  | outOfFuel
deriving DecidableEq, Repr

/-- Modelled from the spec: the text-to-terminal builder (spec 6) yields
one persisted terminal per token, index-aligned with the configuration's
terminal nodes; `termRef i` is the persisted reference `terminals[i]`. -/
def termRef (i : Nat) : Nat := i

/-- `Node.add_layer1_node(l1, parent, tag, terminals)`: the
create-same-node-twice assert, then the terminal, punctuation-unit and
generic branches in source order.  The external layer-1 constructors
`add_fnode`/`add_punct` are modelled from the spec as total constructors
returning a fresh persisted node; `parent.node.add` on an absent persisted
parent is the Python attribute error on `None`. -/
def addL1Node (ip : String → Bool) (ns : List TNode) (s : FinState)
    (parentIdx childIdx : Nat) (tag : Option String) : Except FErr FinState :=
  let child := ns.getD childIdx default
  if !(s.refs.getD childIdx none).isNone && !textTruthy child.text then
    .error .assertCreateTwice
  else if textTruthy child.text then
    if (s.refs.getD childIdx none).isNone then
      if (s.refs.getD parentIdx none).isNone then .error .noneTypeError
      else .ok { s with refs := s.refs.set childIdx (some (termRef childIdx)) }
    else .ok s
  else if child.outgoing.length == 1 &&
      textTruthy (ns.getD (child.outgoing.getD 0 ⟨0, 0, none, false⟩).child default).text &&
      ip ((ns.getD (child.outgoing.getD 0 ⟨0, 0, none, false⟩).child default).text.getD "") then
    if tag != some tagPunct then .error .assertPunctTag
    else if (child.outgoing.getD 0 ⟨0, 0, none, false⟩).tag != some tagTerminal then
      .error .assertPunctTermTag
    else
      .ok ⟨(s.refs.set childIdx (some s.fresh)).set
            (child.outgoing.getD 0 ⟨0, 0, none, false⟩).child
            (some (termRef (child.outgoing.getD 0 ⟨0, 0, none, false⟩).child)),
          s.fresh + 1⟩
  else
    .ok ⟨s.refs.set childIdx (some s.fresh), s.fresh + 1⟩

/-- The inner `for edge in node.outgoing` loop of the primary pass: defer
remote edges, materialize the child of every other edge. -/
def edgesWalk (ip : String → Bool) (ns : List TNode) (i : Nat) :
    List TEdge → FinState → List (Nat × TEdge) →
    Except FErr (FinState × List (Nat × TEdge))
  | [], s, rs => .ok (s, rs)
  | e :: es, s, rs =>
    if e.remote then edgesWalk ip ns i es s (rs ++ [(i, e)])
    else match addL1Node ip ns s i e.child e.tag with
      | .error err => .error err
      | .ok s2 => edgesWalk ip ns i es s2 rs

/-- The primary `for node in self.nodes` pass: the two asserts (dangling
leaf; non-root without incoming, the root compared with Python's structural
`==`), linkage queuing, and the outgoing-edge walk. -/
def nodesWalk (ip : String → Bool) (ns : List TNode) (root : Nat) (ord : List Nat) :
    List Nat → FinState → List (Nat × TEdge) → List Nat →
    Except FErr (FinState × List (Nat × TEdge) × List Nat)
  | [], s, rs, ls => .ok (s, rs, ls)
  | i :: is2, s, rs, ls =>
    let n := ns.getD i default
    if !textTruthy n.text && n.outgoing.isEmpty then .error .assertLeaf
    else if (s.refs.getD i none).isNone &&
        !nodeEqF ns (eqFuel ns) i root && !isLinkage n then
      .error .assertNonRoot
    else if isLinkage n then nodesWalk ip ns root ord is2 s rs (ls ++ [i])
    else match edgesWalk ip ns i (sortedOut ns ord i) s rs with
      | .error err => .error err
      | .ok (s2, rs2) => nodesWalk ip ns root ord is2 s2 rs2 ls

/-- The deferred-remote pass: `node.node.add(edge.tag, edge.child.node,
remote)`; both persisted endpoints must exist (`None` crashes), the
persisted add itself always succeeds on the unfrozen passage. -/
def remotesWalk (s : FinState) : List (Nat × TEdge) → Except FErr FinState
  | [] => .ok s
  | (i, e) :: rs =>
    if (s.refs.getD i none).isNone then .error .noneTypeError
    else if (s.refs.getD e.child none).isNone then .error .noneTypeError
    else remotesWalk s rs

/-- The per-linkage edge scan: `link_relation` is the Python variable (it
also holds `None` when the relation child was never materialized, exactly
as in the source), `link_args` collects the argument references. -/
def linkScan (s : FinState) :
    List TEdge → Option Nat → List (Option Nat) →
    Except FErr (Option Nat × List (Option Nat))
  | [], rel, args => .ok (rel, args)
  | e :: es, rel, args =>
    if e.tag == some tagLinkRelation then
      if rel.isSome then .error .assertMultiLinkRel
      else linkScan s es (s.refs.getD e.child none) args
    else if e.tag == some tagLinkArgument then
      linkScan s es rel (args ++ [s.refs.getD e.child none])
    else linkScan s es rel args

/-- The linkage pass: scan each queued node's (sorted) outgoing edges, then
the two asserts, then the external `add_linkage` modelled from the spec as
a total constructor returning a fresh persisted node. -/
def linkWalk (ns : List TNode) (ord : List Nat) :
    List Nat → FinState → Except FErr FinState
  | [], s => .ok s
  | i :: ls, s =>
    match linkScan s (sortedOut ns ord i) none [] with
    | .error err => .error err
    | .ok (rel, args) =>
      if rel.isNone then .error .assertNoLinkRel
      else if args.length ≤ 1 then .error .assertFewLinkArgs
      else linkWalk ns ord ls ⟨s.refs.set i (some s.fresh), s.fresh + 1⟩

/-- `Configuration.passage`: build the terminals (external, spec 6), run
`topological_sort` (`fuel` bounds its `while` loop), then the primary,
remote and linkage passes.  `ip` is the external `layer0.is_punct`
predicate on a token's text.  The result is the final materialization
state standing for the produced Passage.  Note the input is only ever
read through `c.nodes` and `c.root`: the stack, the buffer and any record
of which actions were applied are not consulted. -/
def finalize (ip : String → Bool) (fuel : Nat) (c : Conf) : Except FErr FinState :=
  let g := topoGraph c.nodes
  let st := tsRun g fuel (initTS g)
  if !st.stack.isEmpty then .error .outOfFuel
  else
    let ord := emission g st
    match nodesWalk ip c.nodes c.root ord ord
        ⟨List.replicate c.nodes.length none, 0⟩ [] [] with
    | .error err => .error err
    | .ok (s, rs, ls) =>
      match remotesWalk s rs with
      | .error err => .error err
      | .ok s2 => linkWalk c.nodes ord ls s2

/-- `Configuration.__init__` from plain text (parsing mode, tokens already
flattened): one terminal node per token, the buffer holding all of them in
order, an empty stack, and the root appended last by `add_node`. -/
def initConf (tokens : List String) : Conf :=
  ⟨tokens.map (fun t => ⟨some t, none, [], []⟩) ++ [⟨none, none, [], []⟩],
   [], List.range tokens.length, tokens.length⟩

/-- The configuration after NODE("A") on a one-token input. -/
def c8Mid : Conf := (applyAction (initConf ["x"]) (.nodeA (some "A") none)).1.1

/-- ... and after a further ROOT("C"): a valid configuration on which
FINISH has never been applied. -/
def c8End : Conf := (applyAction c8Mid (.rootA (some "C"))).1.1

/-- **C8** (counterexample): the reachable configuration after NODE("A")
and ROOT("C") on a one-token input is valid and non-terminal — both
actions are accepted, both return `True` ("parsing should continue"), and
FINISH is never applied — yet the finalizer happily produces a passage
(materializing the non-terminal under the root and the terminal under it)
instead of refusing. -/
theorem c8_counterexample_nonterminal_accepted :
    (applyAction (initConf ["x"]) (.nodeA (some "A") none)).1.2 = none ∧
    (applyAction (initConf ["x"]) (.nodeA (some "A") none)).2 = some true ∧
    (applyAction c8Mid (.rootA (some "C"))).1.2 = none ∧
    (applyAction c8Mid (.rootA (some "C"))).2 = some true ∧
    (PAction.nodeA (some "A") none ≠ .finishA) ∧
    (PAction.rootA (some "C") ≠ .finishA) ∧
    (finalize (fun _ => false) 10 c8End).toOption =
      some ⟨[some 0, none, some 0], 1⟩ := by
  decide

/-- **C8** (amended): the finalizer has no terminal-state precondition at
all: its result depends only on the transient node graph and the root
reference — never on the stack, the buffer, or any record of whether
FINISH was applied (no such flag exists) — and FINISH itself leaves the
configuration unchanged, so finalizing before FINISH gives exactly the
same outcome as finalizing after it. -/
theorem c8_amended_finalize_ignores_terminality (ip : String → Bool)
    (fuel : Nat) (c : Conf) (s b : List Nat) :
    finalize ip fuel ((applyAction c .finishA).1.1) = finalize ip fuel c ∧
    finalize ip fuel ⟨c.nodes, s, b, c.root⟩ = finalize ip fuel c :=
  ⟨rfl, rfl⟩
